import Mathlib

/-!
Verification of the NVP (name-value pair) codec.

The repository encodes a hierarchical value (nested maps, sequences and
string scalars) into flat query-string pairs whose keys follow one of three
conventions (bracket `a.b[0]`, parentheses `a.b(0)`, underscore `A_B0`),
and decodes such pairs back, disambiguating list indices from map fields
that merely look numeric.

The public module `nvp/__init__.py` delegates all key-path work to
`nvp.util`, whose source is not part of the working tree; the util-level
definitions below are therefore modelled from the specification and pinned
by the concrete expectations of the repository test suite
(`src/tests/suite.py`).
-/

namespace NVP

/-! ## Character and string utilities -/

/-- ASCII decimal-digit test, matching the `\d` character class used by the
key grammars. -/
def isDig (c : Char) : Bool := 48 ≤ c.toNat && c.toNat ≤ 57

/-- Numeric value of an ASCII digit character. -/
def dval (c : Char) : Nat := c.toNat - 48

/-- The decimal digit character for a value below ten. -/
def digitChar : Nat → Char
  | 0 => '0'
  | 1 => '1'
  | 2 => '2'
  | 3 => '3'
  | 4 => '4'
  | 5 => '5'
  | 6 => '6'
  | 7 => '7'
  | 8 => '8'
  | _ => '9'

/-- Fuel-driven decimal rendering of a natural number (most significant
digit first). The fuel argument only bounds the recursion depth. -/
def natDigitsGo : Nat → Nat → List Char
  | 0, _ => []
  | fuel + 1, n =>
    if n < 10 then [digitChar n]
    else natDigitsGo fuel (n / 10) ++ [digitChar (n % 10)]

/-- Decimal digit string of a natural number, as a character list. -/
def natDigits (n : Nat) : List Char := natDigitsGo (n + 1) n

/-- Decimal digit string of a natural number. -/
def natStr (n : Nat) : String := ⟨natDigits n⟩

/-- Parse a (digit-only) character list as a natural number. -/
def digitsToNat (ds : List Char) : Nat := ds.foldl (fun a c => 10 * a + dval c) 0

/-- Split a character list on a separator character; the separator is kept
in no group, and `n` separators produce `n + 1` groups. -/
def splitOnChar (sep : Char) : List Char → List (List Char)
  | [] => [[]]
  | c :: rest =>
    match splitOnChar sep rest with
    | g :: gs => if c = sep then [] :: g :: gs else (c :: g) :: gs
    | [] => [[c]]

/-- Join character-list groups with a separator character; the inverse of
`splitOnChar` when no group contains the separator. -/
def joinSepChar (sep : Char) : List (List Char) → List Char
  | [] => []
  | [g] => g
  | g :: g₁ :: gs => g ++ sep :: joinSepChar sep (g₁ :: gs)

/-- Join strings with a separator string. -/
def joinSepStr (sep : String) : List String → String
  | [] => ""
  | [s] => s
  | s :: s₁ :: ss => s ++ sep ++ joinSepStr sep (s₁ :: ss)

/-! ## Data model -/

/-- A hierarchical NVP value: string scalars, sequences and mappings.
Mappings are association lists in caller iteration order. -/
inductive Value where
  | scalar : String → Value
  | seq : List Value → Value
  | map : List (String × Value) → Value

/-- The three key conventions of the NVP format. -/
inductive Convention where
  | bracket
  | parentheses
  | underscore
deriving DecidableEq

/-- One token of a parsed key path: either a mapping-field name or a
sequence index. The Boolean on an index records whether the index was
written glued onto the preceding name (trailing digits of the final
underscore component, e.g. `BAR1`) rather than as a separated component
(e.g. `BAR_1`); the flag drives the spelling used when an ambiguous index
falls back to a literal field name. -/
inductive Tok where
  | field : String → Tok
  | idx : Nat → Bool → Tok
deriving DecidableEq

/-- A path segment as described by the spec: a name together with the
indices decorating it (`a.d[0][1]` has a segment `d` with indices 0, 1). -/
structure Seg where
  name : String
  idxs : List Nat

/-- Token sequence of a list of segments. -/
def segsToToks (segs : List Seg) : List Tok :=
  segs.flatMap (fun sg => Tok.field sg.name :: sg.idxs.map (fun i => Tok.idx i false))

/-- Encoding failures. -/
inductive EncErr where
  | invalidRoot
  | unsupportedValueType
deriving DecidableEq

/-- Decoding failures. -/
inductive DecErr where
  | malformedKey
  | conflictingStructure
  | sparseSequence
deriving DecidableEq

/-! ## Flattener (encode direction)

Modelled from the spec: `nvp.util.get_hierarchical_pairs` performs a
depth-first pre-order traversal maintaining a path-segment stack; entering
a mapping field pushes a segment, entering a sequence element decorates the
nearest enclosing name with the element index, and each scalar leaf emits
one pair. Its source file (`nvp/util.py`) is absent from the tree. -/

mutual
/-- Token paths and scalar values of all leaves of a value, in depth-first
order. A sequence index prepends an index token; a mapping field prepends
a field token. -/
def flattenPaths : Value → List (List Tok × String)
  | .scalar s => [([], s)]
  | .seq xs => flattenSeq 0 xs
  | .map fs => flattenMap fs

/-- Leaf paths of the elements of a sequence, starting at a given index. -/
def flattenSeq : Nat → List Value → List (List Tok × String)
  | _, [] => []
  | i, x :: xs =>
    (flattenPaths x).map (fun ps => (Tok.idx i false :: ps.1, ps.2)) ++ flattenSeq (i + 1) xs

/-- Leaf paths of the fields of a mapping. -/
def flattenMap : List (String × Value) → List (List Tok × String)
  | [] => []
  | (k, x) :: fs =>
    (flattenPaths x).map (fun ps => (Tok.field k :: ps.1, ps.2)) ++ flattenMap fs
end

/-! ## Key generation -/

/-- Render the continuation of a bracket- or parentheses-style key: a `.`
before every field name, and a delimited `[i]` or `(i)` group for every
index. -/
def renderRestD (op cl : Char) : List Tok → List Char
  | [] => []
  | .field n :: rest => '.' :: (n.data ++ renderRestD op cl rest)
  | .idx i _ :: rest => op :: (natDigits i ++ cl :: renderRestD op cl rest)

/-- Render a whole bracket- or parentheses-style key (no leading `.`). -/
def renderKeyD (op cl : Char) : List Tok → List Char
  | [] => []
  | .field n :: rest => n.data ++ renderRestD op cl rest
  | .idx i g :: rest => renderRestD op cl (.idx i g :: rest)

/-- Render the continuation of an underscore-style key. Every name and
every non-final index is preceded by `_`; an index that is the final token
is glued directly onto what precedes it with no separator. Names keep the
caller's case (pinned by `test_dumps_list_impostors`, where lowercase
input fields emit lowercase underscore keys). -/
def renderRestU : List Tok → List Char
  | [] => []
  | [.idx i _] => natDigits i
  | .idx i _ :: rest => '_' :: (natDigits i ++ renderRestU rest)
  | .field n :: rest => '_' :: (n.data ++ renderRestU rest)

/-- Render a whole underscore-style key (no leading `_`). -/
def renderKeyU : List Tok → List Char
  | [] => []
  | .field n :: rest => n.data ++ renderRestU rest
  | .idx i g :: rest => renderRestU (.idx i g :: rest)

/-- Render a token path as a raw key under a convention. -/
def renderKey (conv : Convention) (toks : List Tok) : String :=
  match conv with
  | .bracket => ⟨renderKeyD '[' ']' toks⟩
  | .parentheses => ⟨renderKeyD '(' ')' toks⟩
  | .underscore => ⟨renderKeyU toks⟩

/-- Modelled from the spec: `nvp.util.generate_key` assembles the raw key
of a full path of segments under a convention (its source file is absent
from the tree). -/
def generate_key (segs : List Seg) (conv : Convention) : String :=
  renderKey conv (segsToToks segs)

/-- Modelled from the spec: `nvp.util.get_hierarchical_pairs` flattens a
value into raw key-value pairs; a non-mapping root is rejected with
`InvalidRoot` (surfacing as `ValueError` in the test suite). -/
def get_hierarchical_pairs (v : Value) (conv : Convention) :
    Except EncErr (List (String × String)) :=
  match v with
  | .map _ => .ok ((flattenPaths v).map (fun ps => (renderKey conv ps.1, ps.2)))
  | _ => .error .invalidRoot

/-- Whether a value is a mapping (`nvp.util.is_dict`). -/
def is_dict : Value → Bool
  | .map _ => true
  | _ => false

/-! ## Convention detection -/

/-- Scan for the decimal digits and closing delimiter of an index group,
having already consumed the opening delimiter and one digit. -/
def groupClose (cl : Char) : List Char → Bool
  | [] => false
  | x :: rest => if x = cl then true else if isDig x then groupClose cl rest else false

/-- Scan for an index group body (one or more digits then the closing
delimiter), having already consumed the opening delimiter. -/
def groupAfterOpen (cl : Char) : List Char → Bool
  | [] => false
  | x :: rest => isDig x && groupClose cl rest

/-- Whether a character list contains a delimited index group, e.g. `[7]`
for delimiters `[` and `]`. -/
def hasIndexGroup (op cl : Char) : List Char → Bool
  | [] => false
  | x :: rest => (x = op && groupAfterOpen cl rest) || hasIndexGroup op cl rest

/-- Modelled from the spec: `nvp.util.detect_key_convention` classifies a
raw key by a per-key heuristic: bracket if it contains a `[digits]` group,
else parentheses if it contains a `(digits)` group, else underscore (its
source file is absent from the tree). -/
def detect_key_convention (key : String) : Convention :=
  if hasIndexGroup '[' ']' key.data then .bracket
  else if hasIndexGroup '(' ')' key.data then .parentheses
  else .underscore

/-- The property of containing a delimited index group, stated as an
explicit decomposition: some occurrence of the opening delimiter followed
by one or more decimal digits and the closing delimiter. -/
def HasGroupProp (op cl : Char) (cs : List Char) : Prop :=
  ∃ a d b, cs = a ++ op :: (d ++ cl :: b) ∧ d ≠ [] ∧ ∀ ch ∈ d, isDig ch = true

/-! ## Key parsing (decode direction)

Modelled from the spec: parsing of a raw key into path tokens per
convention (`nvp/util.py`, whose source is absent from the tree).
Bracket and parentheses keys consume a name, then zero or more delimited
index groups, with `.` separating segments; a bad group is a malformed
key. Underscore keys are split on `_`: an all-digit component is a
(separated) index for the preceding name, a trailing digit run on the
final component is a glued index, and any other component is a literal
name (components containing `.` address nested fields, matching the
bracket form produced by `convert_underscore_into_bracket_key`). -/

/-- Name characters of a delimited component: anything up to the segment
separator `.` or the opening delimiter. -/
def nameChar (op : Char) (ch : Char) : Bool := ch ≠ '.' && ch ≠ op

/-- Fuel-driven parser for bracket- and parentheses-style keys. The flag
is `true` at the start of a component (a name is expected) and `false`
after a name or index group (a `.`, an index group, or the end of the key
is expected). The fuel only bounds the recursion depth. -/
def parseDGo (op cl : Char) : Nat → Bool → List Char → Option (List Tok)
  | 0, _, _ => none
  | fuel + 1, true, cs =>
    let nm := cs.takeWhile (nameChar op)
    let rest := cs.dropWhile (nameChar op)
    if nm.isEmpty then none
    else (parseDGo op cl fuel false rest).map (Tok.field ⟨nm⟩ :: ·)
  | _, false, [] => some []
  | fuel + 1, false, ch :: rest =>
    if ch = '.' then parseDGo op cl fuel true rest
    else if ch = op then
      let ds := rest.takeWhile isDig
      let rest₁ := rest.dropWhile isDig
      if ds.isEmpty then none
      else
        match rest₁ with
        | y :: rest₂ =>
          if y = cl then (parseDGo op cl fuel false rest₂).map (Tok.idx (digitsToNat ds) false :: ·)
          else none
        | [] => none
    else none

/-- Parse a bracket- or parentheses-style key into path tokens. -/
def parseKeyD (op cl : Char) (key : String) : Option (List Tok) :=
  parseDGo op cl (key.data.length + 1) true key.data

/-- Trailing decimal-digit run of a character list. -/
def trailingDigits (cs : List Char) : List Char :=
  (cs.reverse.takeWhile isDig).reverse

/-- Field tokens of a (possibly dotted) name component; fails on an empty
name. -/
def fieldToks (cs : List Char) : Option (List Tok) :=
  let subs := splitOnChar '.' cs
  if subs.any List.isEmpty then none
  else some (subs.map (fun nm => Tok.field ⟨nm⟩))

/-- Parse the `_`-split components of an underscore-style key into path
tokens, flagging glued indices. -/
def parseUComps : List (List Char) → Option (List Tok)
  | [] => some []
  | [comp] =>
    if comp.isEmpty then none
    else if comp.all isDig then some [Tok.idx (digitsToNat comp) false]
    else
      let ds := trailingDigits comp
      let base := comp.take (comp.length - ds.length)
      (fieldToks base).map (fun fts =>
        if ds.isEmpty then fts else fts ++ [Tok.idx (digitsToNat ds) true])
  | comp :: c₁ :: rest =>
    if comp.isEmpty then none
    else if comp.all isDig then
      (parseUComps (c₁ :: rest)).map (Tok.idx (digitsToNat comp) false :: ·)
    else
      (fieldToks comp).bind (fun fts => (parseUComps (c₁ :: rest)).map (fts ++ ·))

/-- Parse an underscore-style key into path tokens. -/
def parseKeyU (key : String) : Option (List Tok) :=
  parseUComps (splitOnChar '_' key.data)

/-! ## Underscore-to-bracket key conversion -/

/-- Wrap a digit run in bracket delimiters. -/
def bracketize (ds : List Char) : List Char := '[' :: ds ++ [']']

/-- Fuel-driven conversion of the `_`-split components of an underscore
key into the components of the equivalent bracket key: all-digit
components become `[i]` groups attached to the preceding name, and a
trailing digit run on the final component becomes a final `[i]` group. -/
def convCompsGo : Nat → List (List Char) → List (List Char)
  | 0, _ => []
  | _ + 1, [] => []
  | _ + 1, [comp] =>
    if comp.all isDig then [bracketize comp]
    else
      let ds := trailingDigits comp
      if ds.isEmpty then [comp]
      else [comp.take (comp.length - ds.length) ++ bracketize ds]
  | fuel + 1, comp :: c₁ :: rest =>
    if comp.all isDig then bracketize comp :: convCompsGo fuel (c₁ :: rest)
    else
      let ds := (c₁ :: rest).takeWhile (List.all · isDig)
      let rest₁ := (c₁ :: rest).dropWhile (List.all · isDig)
      match rest₁ with
      | [] => [comp ++ (ds.map bracketize).flatten]
      | _ => (comp ++ (ds.map bracketize).flatten) :: convCompsGo fuel rest₁

/-- Modelled from the spec: `nvp.util.convert_underscore_into_bracket_key`
rewrites an underscore-convention key as the bracket-convention key for
the same path (its source file is absent from the tree; behavior pinned by
`test_convert_underscore_into_bracket_key`). -/
def convert_underscore_into_bracket_key (key : String) : String :=
  let comps := splitOnChar '_' key.data
  ⟨joinSepChar '.' (convCompsGo (comps.length + 1) comps)⟩

/-- Well-formedness of an underscore key for conversion: no bracket
delimiters anywhere, and the first `_`-component is not all digits (an
index needs a preceding name to attach to). -/
def wfUKey (key : String) : Bool :=
  key.data.all (fun ch => (ch != '[') && (ch != ']')) &&
    (match splitOnChar '_' key.data with
     | [] => false
     | c₀ :: _ => !(c₀.all isDig))

/-! ## List-versus-map reconciliation

Modelled from the spec: a provisional underscore index is only committed
as a sequence index when no sibling pair uses the identical prefix as a
plain (non-indexed) field, and when every smaller index of the same
prefix is also present among the currently-known pairs (a sequence must
be filled contiguously from zero, so an index whose predecessors are
absent cannot be a sequence element). Otherwise the digits fall back into
the literal field name, glued (`bar33`) or `_`-separated (`not-a-list_1`)
according to how the key spelled them. Behavior pinned by
`test_loads_list_impostors`. -/

/-- An entry of a decode batch: origin-is-underscore flag, provisional
path tokens, and the leaf value. -/
def Entry : Type := Bool × List Tok × String

/-- All indices attached immediately after a given provisional prefix
anywhere in the batch. -/
def sibIdxs (entries : List Entry) (pre : List Tok) : List Nat :=
  entries.filterMap (fun e =>
    if e.2.1.take pre.length = pre then
      match e.2.1.drop pre.length with
      | Tok.idx j _ :: _ => some j
      | _ => none
    else none)

/-- Whether some entry of the batch uses the given provisional prefix as a
plain field: either the entry ends exactly there or continues with a
subfield rather than an index. -/
def plainUse (entries : List Entry) (pre : List Tok) : Bool :=
  entries.any (fun e =>
    e.2.1.take pre.length = pre &&
      match e.2.1.drop pre.length with
      | Tok.idx _ _ :: _ => false
      | _ => true)

/-- Whether a provisional index survives reconciliation at a prefix: no
plain use of the prefix, and every smaller index present. -/
def keepIdx (entries : List Entry) (pre : List Tok) (i : Nat) : Bool :=
  !plainUse entries pre && (List.range i).all (fun j => (sibIdxs entries pre).contains j)

/-- Fold a fallen-back index into the preceding literal field name, glued
or `_`-separated according to its spelling. -/
def mergeIdx (acc : List Tok) (i : Nat) (glued : Bool) : List Tok :=
  match acc.getLast? with
  | some (Tok.field n) =>
    acc.dropLast ++ [Tok.field (n ++ (if glued then "" else "_") ++ natStr i)]
  | _ => acc ++ [Tok.field (natStr i)]

/-- Resolve the tokens of one entry against the whole batch. The first
accumulator is the provisional prefix walked so far, the second the
resolved output. Only underscore-origin entries are ambiguous; bracket and
parentheses indices are kept unconditionally. -/
def resolveGo (entries : List Entry) (isU : Bool) :
    List Tok → List Tok → List Tok → List Tok
  | _, acc, [] => acc
  | pre, acc, Tok.field n :: rest =>
    resolveGo entries isU (pre ++ [Tok.field n]) (acc ++ [Tok.field n]) rest
  | pre, acc, Tok.idx i g :: rest =>
    if !isU || keepIdx entries pre i then
      resolveGo entries isU (pre ++ [Tok.idx i g]) (acc ++ [Tok.idx i g]) rest
    else
      resolveGo entries isU (pre ++ [Tok.idx i g]) (mergeIdx acc i g) rest

/-- Resolved tokens of one entry. -/
def resolveEntry (entries : List Entry) (e : Entry) : List Tok × String :=
  (resolveGo entries e.1 [] [] e.2.1, e.2.2)

/-! ## Partial tree and folding -/

/-- Decode-time partial tree: sequence slots may still be unfilled
placeholders. -/
inductive PTree where
  | leaf : String → PTree
  | pseq : List (Option PTree) → PTree
  | pmap : List (String × PTree) → PTree

/-- First association of a name in a partial-map entry list. -/
def assocFind (n : String) : List (String × PTree) → Option PTree
  | [] => none
  | (k, c) :: fs => if k = n then some c else assocFind n fs

/-- Replace the first association of a name in a partial-map entry list. -/
def assocSet (n : String) (c : PTree) : List (String × PTree) → List (String × PTree)
  | [] => []
  | (k, c₀) :: fs => if k = n then (k, c) :: fs else (k, c₀) :: assocSet n c fs

/-- Pad a slot list with empty placeholders up to a length. -/
def padTo (len : Nat) (xs : List (Option PTree)) : List (Option PTree) :=
  xs ++ List.replicate (len - xs.length) none

/-- Build the fresh partial subtree holding a single leaf under a path. -/
def buildFresh : List Tok → String → PTree
  | [], s => .leaf s
  | .field n :: rest, s => .pmap [(n, buildFresh rest s)]
  | .idx i _ :: rest, s => .pseq (List.replicate i none ++ [some (buildFresh rest s)])

/-- Insert one leaf into the partial tree along resolved path tokens.
Descending a field token requires a map node, descending an index token
requires a sequence node (padding it with placeholders as needed); any
mismatch, including a container meeting the end of a path, is a
conflicting structure. -/
def insertP (t : PTree) : List Tok → String → Except DecErr PTree
  | [], s =>
    match t with
    | .leaf _ => .ok (.leaf s)
    | _ => .error .conflictingStructure
  | .field n :: rest, s =>
    match t with
    | .pmap fs =>
      match assocFind n fs with
      | some c => (insertP c rest s).map (fun c₁ => .pmap (assocSet n c₁ fs))
      | none => .ok (.pmap (fs ++ [(n, buildFresh rest s)]))
    | _ => .error .conflictingStructure
  | .idx i _ :: rest, s =>
    match t with
    | .pseq xs =>
      let xs₁ := padTo (i + 1) xs
      match xs₁.getD i none with
      | some c => (insertP c rest s).map (fun c₁ => .pseq (xs₁.set i (some c₁)))
      | none => .ok (.pseq (xs₁.set i (some (buildFresh rest s))))
    | _ => .error .conflictingStructure

mutual
/-- Convert a completed partial tree into a final value; an unfilled
sequence placeholder is a sparse sequence. -/
def finalize : PTree → Except DecErr Value
  | .leaf s => .ok (.scalar s)
  | .pseq xs => (finalizeSeq xs).map .seq
  | .pmap fs => (finalizeMap fs).map .map

/-- Finalize all slots of a sequence node. -/
def finalizeSeq : List (Option PTree) → Except DecErr (List Value)
  | [] => .ok []
  | none :: _ => .error .sparseSequence
  | some c :: xs =>
    match finalize c with
    | .error e => .error e
    | .ok v =>
      match finalizeSeq xs with
      | .error e => .error e
      | .ok vs => .ok (v :: vs)

/-- Finalize all fields of a map node. -/
def finalizeMap : List (String × PTree) → Except DecErr (List (String × Value))
  | [] => .ok []
  | (k, c) :: fs =>
    match finalize c with
    | .error e => .error e
    | .ok v =>
      match finalizeMap fs with
      | .error e => .error e
      | .ok vs => .ok ((k, v) :: vs)
end

/-! ## Rebuilder -/

/-- Parse one raw pair: auto-detect the convention of the key, then parse
it into provisional path tokens. -/
def parseEntry (kv : String × String) : Except DecErr Entry :=
  match detect_key_convention kv.1 with
  | .bracket =>
    match parseKeyD '[' ']' kv.1 with
    | some toks => .ok (false, toks, kv.2)
    | none => .error .malformedKey
  | .parentheses =>
    match parseKeyD '(' ')' kv.1 with
    | some toks => .ok (false, toks, kv.2)
    | none => .error .malformedKey
  | .underscore =>
    match parseKeyU kv.1 with
    | some toks => .ok (true, toks, kv.2)
    | none => .error .malformedKey

/-- Parsing, reconciliation and folding stages of the rebuilder: parse
every key, reconcile provisional underscore indices against the whole
batch, and fold every leaf into the partial tree in input order. -/
def foldStage (pairs : List (String × String)) : Except DecErr PTree := do
  let entries ← pairs.mapM parseEntry
  let resolved := entries.map (resolveEntry entries)
  resolved.foldlM (fun t pv => insertP t pv.1 pv.2) (.pmap [])

/-- Modelled from the spec: `nvp.util.get_hierarchical_dict` rebuilds the
hierarchical value from flat raw pairs (its source file is absent from the
tree): run the parsing, reconciliation and folding stages, then finalize,
rejecting sequences with unfilled slots. -/
def get_hierarchical_dict (pairs : List (String × String)) : Except DecErr Value := do
  let t ← foldStage pairs
  finalize t

mutual
/-- Whether a partial tree still contains an unfilled sequence slot. -/
def hasGapP : PTree → Bool
  | .leaf _ => false
  | .pseq xs => hasGapS xs
  | .pmap fs => hasGapM fs

/-- Gap search among sequence slots. -/
def hasGapS : List (Option PTree) → Bool
  | [] => false
  | none :: _ => true
  | some c :: xs => hasGapP c || hasGapS xs

/-- Gap search among map fields. -/
def hasGapM : List (String × PTree) → Bool
  | [] => false
  | (_, c) :: fs => hasGapP c || hasGapM fs
end

/-- Fold a batch of resolved path-value pairs into a partial tree, the
folding stage of the rebuilder. -/
def foldIns (l : List (List Tok × String)) (t : PTree) : Except DecErr PTree :=
  l.foldlM (fun t pv => insertP t pv.1 pv.2) t

/-- Round trip at the pair level: flatten under a convention, then
rebuild. -/
def roundTrip (v : Value) (conv : Convention) : Except EncErr (Except DecErr Value) :=
  (get_hierarchical_pairs v conv).map get_hierarchical_dict

/-! ## The public decode entry point

The `loads` function of `nvp/__init__.py` is present in the tree; its
embedding below mirrors its control flow: a falsy input returns an empty
mapping, a truthy non-string input is returned unchanged, and a truthy
string is split as a query string, filtered, and either returned flat or
rebuilt hierarchically. The `strict_parsing` parameter is accepted and
never forwarded to the query-string parser, exactly as in the source. -/

/-- A Python-style dynamic input value for `loads`, with the falsy cases
of each kind representable. -/
inductive PyIn where
  | pynone : PyIn
  | pystr : String → PyIn
  | pyint : Int → PyIn
  | pylist : List String → PyIn
deriving DecidableEq

/-- Python truthiness of an input value. -/
def pyTruthy : PyIn → Bool
  | .pynone => false
  | .pystr s => !s.data.isEmpty
  | .pyint n => decide (n ≠ 0)
  | .pylist xs => !xs.isEmpty

/-- Whether an input value is a string (`nvp.util.is_string`). -/
def is_string : PyIn → Bool
  | .pystr _ => true
  | _ => false

/-- Result of `loads`: a hierarchical value, a flat pair list (when
`get_hierarchical` is off), or the untouched non-string input. -/
inductive LoadResult where
  | val : Value → LoadResult
  | flat : List (String × String) → LoadResult
  | raw : PyIn → LoadResult

/-- Split a query string into raw pairs (the external `parse_qs`
primitive, minus percent-decoding): groups split on `&`, each group split
at its first `=`; an empty group is skipped, and a pair with a blank value
is kept only when blank values are requested. -/
def splitQS (s : String) (keepBlank : Bool) : List (String × String) :=
  (splitOnChar '&' s.data).filterMap (fun g =>
    if g.isEmpty then none
    else
      let k := g.takeWhile (· ≠ '=')
      let rest := g.dropWhile (· ≠ '=')
      let v : List Char := rest.drop 1
      if v.isEmpty && !keepBlank then none
      else some (⟨k⟩, ⟨v⟩))

/-- Apply an optional filter function. -/
def applyFilter (f : Option (String → String)) (s : String) : String :=
  match f with
  | some g => g s
  | none => s

/-- Modelled from the spec: `nvp.util.get_filtered_pairs` passes every key
through the key filter and every value through the value filter (its
source file is absent from the tree). -/
def get_filtered_pairs (pairs : List (String × String))
    (key_filter value_filter : Option (String → String)) : List (String × String) :=
  pairs.map (fun p => (applyFilter key_filter p.1, applyFilter value_filter p.2))

/-- The decode entry point `nvp.loads`. Parameters and control flow mirror
`nvp/__init__.py`: the falsy check precedes the string check, and
`strict_parsing` is accepted but unused. -/
def loads (input : PyIn) (keep_blank_values strict_parsing get_hierarchical : Bool)
    (key_filter value_filter : Option (String → String)) : Except DecErr LoadResult :=
  if pyTruthy input = false then .ok (.val (.map []))
  else
    match input with
    | .pystr s =>
      let pairs := get_filtered_pairs (splitQS s keep_blank_values) key_filter value_filter
      if get_hierarchical then (get_hierarchical_dict pairs).map .val
      else .ok (.flat pairs)
    | x => .ok (.raw x)

/-! ## Abstract delimited components

A bracket- or parentheses-style key is a `.`-joined sequence of
components, each a name followed by zero or more delimited digit runs.
The abstract form below mediates between the renderers, the parsers and
the underscore-to-bracket conversion. -/

/-- One delimited component: name characters and the digit runs of its
index groups. -/
structure DComp where
  nm : List Char
  runs : List (List Char)

/-- Wrap a digit run in the delimiters. -/
def bracketizeWith (op cl : Char) (ds : List Char) : List Char := op :: ds ++ [cl]

/-- Characters of one rendered component. -/
def renderDComp (op cl : Char) (c : DComp) : List Char :=
  c.nm ++ (c.runs.map (bracketizeWith op cl)).flatten

/-- Characters of a rendered component sequence, `.`-joined. -/
def renderDComps (op cl : Char) (spec : List DComp) : List Char :=
  joinSepChar '.' (spec.map (renderDComp op cl))

/-- Path tokens denoted by a component sequence. -/
def toksOfDComps (spec : List DComp) : List Tok :=
  spec.flatMap (fun c =>
    Tok.field ⟨c.nm⟩ :: c.runs.map (fun ds => Tok.idx (digitsToNat ds) false))

/-- Characters remaining after the name of the current component: its
index groups, then a `.` and the following components if any. -/
def renderAfter (op cl : Char) (runs : List (List Char)) (spec : List DComp) : List Char :=
  (runs.map (bracketizeWith op cl)).flatten ++
    match spec with
    | [] => []
    | _ => '.' :: renderDComps op cl spec

/-- Tokens remaining after the name of the current component. -/
def toksAfter (runs : List (List Char)) (spec : List DComp) : List Tok :=
  runs.map (fun ds => Tok.idx (digitsToNat ds) false) ++ toksOfDComps spec

/-- Well-formed digit runs: nonempty and all decimal digits. -/
def WfRuns (runs : List (List Char)) : Prop :=
  ∀ ds ∈ runs, ds ≠ [] ∧ ∀ ch ∈ ds, isDig ch = true

/-- Well-formed component: nonempty name avoiding the separator and the
opening delimiter, with well-formed runs. -/
def WfDComp (op : Char) (c : DComp) : Prop :=
  c.nm ≠ [] ∧ (∀ ch ∈ c.nm, ch ≠ '.' ∧ ch ≠ op) ∧ WfRuns c.runs

/-- Well-formed component sequence. -/
def WfSpec (op : Char) (spec : List DComp) : Prop :=
  ∀ c ∈ spec, WfDComp op c

/-- Forget the glued-spelling flags of a token path, keeping the path
itself (the Key Path denoted by a key). -/
def stripGlue (toks : List Tok) : List Tok :=
  toks.map (fun t =>
    match t with
    | .idx i _ => .idx i false
    | t => t)

/-- Components of a dotted name whose last sub-name carries the given
digit runs: `a.b` with runs `[0]` denotes `a` and then `b[0]`. -/
def nameSpec : List (List Char) → List (List Char) → List DComp
  | [], _ => []
  | [s], runs => [⟨s, runs⟩]
  | s :: subs, runs => ⟨s, []⟩ :: nameSpec subs runs

/-- Component sequence of a token path: collect the index tokens following
each field name into that component's digit runs. -/
def toksSpecRuns (nm : List Char) (runs : List (List Char)) : List Tok → List DComp
  | [] => [⟨nm, runs⟩]
  | .idx i _ :: rest => toksSpecRuns nm (runs ++ [natDigits i]) rest
  | .field n :: rest => ⟨nm, runs⟩ :: toksSpecRuns n.data [] rest

/-- Component sequence of a whole token path (empty on a degenerate
leading index). -/
def toksSpec : List Tok → List DComp
  | [] => []
  | .field n :: rest => toksSpecRuns n.data [] rest
  | .idx _ _ :: _ => []

/-- Whether a token path contains a sequence index. -/
def hasIdx (toks : List Tok) : Bool :=
  toks.any (fun t =>
    match t with
    | .idx _ _ => true
    | _ => false)

/-- The field-name characters of a token path, in order. -/
def fieldNames (toks : List Tok) : List (List Char) :=
  toks.filterMap (fun t =>
    match t with
    | .field m => some m.data
    | _ => none)

/-! ## Validity of encodable documents

A value survives the encode-decode round trip when its field names cannot
collide with the key grammar: names are nonempty, avoid the separator and
delimiter characters and the underscore, and do not end in a decimal digit
(a digit-suffixed name would be re-detected as an index by the underscore
heuristic); sibling names are distinct; and every nested sequence or
mapping is nonempty (an empty container emits no pair and vanishes). -/

/-- A field name that cannot be confused with key syntax. -/
def validName (n : String) : Bool :=
  !n.data.isEmpty &&
    n.data.all (fun ch => (ch != '.') && (ch != '[') && (ch != ']') &&
      (ch != '(') && (ch != ')') && (ch != '_')) &&
    (match n.data.getLast? with
     | some c => !isDig c
     | none => false)

mutual
/-- Validity of a nested value for lossless round-tripping. -/
def validV : Value → Bool
  | .scalar _ => true
  | .seq xs => !xs.isEmpty && validL xs
  | .map fs => !fs.isEmpty && validM fs

/-- Validity of sequence elements. -/
def validL : List Value → Bool
  | [] => true
  | x :: xs => validV x && validL xs

/-- Validity of mapping fields: valid, pairwise-distinct names with valid
values. -/
def validM : List (String × Value) → Bool
  | [] => true
  | (k, x) :: fs =>
    validName k && !(fs.map Prod.fst).contains k && validV x && validM fs
end

/-- Validity of a whole document: a mapping at the root (possibly empty)
with valid fields. -/
def validDoc : Value → Bool
  | .map fs => validM fs
  | _ => false

mutual
/-- The completed partial tree of a value. -/
def toP : Value → PTree
  | .scalar s => .leaf s
  | .seq xs => .pseq (toPL xs)
  | .map fs => .pmap (toPM fs)

/-- Completed slots of sequence elements. -/
def toPL : List Value → List (Option PTree)
  | [] => []
  | x :: xs => some (toP x) :: toPL xs

/-- Completed fields of a mapping. -/
def toPM : List (String × Value) → List (String × PTree)
  | [] => []
  | (k, x) :: fs => (k, toP x) :: toPM fs
end

/-! ## Decimal digit lemmas -/

/-- The digit character of a value below ten decodes back to that value. -/
theorem dval_digitChar (k : Nat) (h : k < 10) : dval (digitChar k) = k := by
  interval_cases k <;> decide

/-- The digit character of a value below ten is a decimal digit. -/
theorem isDig_digitChar (k : Nat) (h : k < 10) : isDig (digitChar k) = true := by
  interval_cases k <;> decide

/-- Digit parsing distributes over appending one digit. -/
theorem digitsToNat_append_one (xs : List Char) (c : Char) :
    digitsToNat (xs ++ [c]) = 10 * digitsToNat xs + dval c := by
  simp [digitsToNat, List.foldl_append]

/-- A digit character differs from every non-digit character. -/
theorem isDig_ne {c d : Char} (hc : isDig c = true) (hd : isDig d = false) : c ≠ d := by
  intro he
  rw [he] at hc
  rw [hc] at hd
  cases hd

/-- The fuel-driven decimal rendering is nonempty, consists of digits, and
decodes back to its input whenever the fuel dominates the input. -/
theorem natDigitsGo_spec :
    ∀ fuel n, n < fuel →
      natDigitsGo fuel n ≠ [] ∧ (∀ c ∈ natDigitsGo fuel n, isDig c = true) ∧
        digitsToNat (natDigitsGo fuel n) = n := by
  intro fuel
  induction fuel with
  | zero => omega
  | succ fuel ih =>
    intro n hn
    by_cases h10 : n < 10
    · refine ⟨by simp [natDigitsGo, h10], ?_, ?_⟩
      · intro c hc
        simp [natDigitsGo, h10] at hc
        exact hc ▸ isDig_digitChar n h10
      · simp [natDigitsGo, h10, digitsToNat]
        exact dval_digitChar n h10
    · have hd : n / 10 < fuel := by omega
      obtain ⟨hne, hdig, hval⟩ := ih (n / 10) hd
      have hgo : natDigitsGo (fuel + 1) n =
          natDigitsGo fuel (n / 10) ++ [digitChar (n % 10)] := by
        simp [natDigitsGo, h10]
      refine ⟨by simp [hgo], ?_, ?_⟩
      · intro c hc
        rw [hgo] at hc
        rcases List.mem_append.mp hc with h₁ | h₁
        · exact hdig c h₁
        · simp at h₁
          exact h₁ ▸ isDig_digitChar (n % 10) (Nat.mod_lt n (by omega))
      · rw [hgo, digitsToNat_append_one, hval, dval_digitChar (n % 10) (Nat.mod_lt n (by omega))]
        omega

/-- The decimal rendering of a natural number is nonempty. -/
theorem natDigits_ne_nil (n : Nat) : natDigits n ≠ [] :=
  (natDigitsGo_spec (n + 1) n (by omega)).1

/-- The decimal rendering of a natural number consists of digits. -/
theorem natDigits_all_dig (n : Nat) : ∀ c ∈ natDigits n, isDig c = true :=
  (natDigitsGo_spec (n + 1) n (by omega)).2.1

/-- The decimal rendering of a natural number decodes back to it. -/
theorem digitsToNat_natDigits (n : Nat) : digitsToNat (natDigits n) = n :=
  (natDigitsGo_spec (n + 1) n (by omega)).2.2

/-! ## Split and join lemmas -/

/-- Splitting never produces the empty group list. -/
theorem splitOnChar_ne_nil (sep : Char) (cs : List Char) : splitOnChar sep cs ≠ [] := by
  cases cs with
  | nil => simp [splitOnChar]
  | cons c rest =>
    rw [splitOnChar]
    rcases h : splitOnChar sep rest with _ | ⟨g, gs⟩
    · simp
    · by_cases hc : c = sep <;> simp [hc]

/-- No group produced by splitting contains the separator. -/
theorem splitOnChar_not_mem (sep : Char) :
    ∀ cs, ∀ g ∈ splitOnChar sep cs, sep ∉ g := by
  intro cs
  induction cs with
  | nil => simp [splitOnChar]
  | cons c rest ih =>
    intro g hg
    rw [splitOnChar] at hg
    rcases h : splitOnChar sep rest with _ | ⟨g₁, gs⟩
    · exact absurd h (splitOnChar_ne_nil sep rest)
    · rw [h] at hg
      by_cases hc : c = sep
      · simp [hc] at hg
        rcases hg with hg | hg | hg
        · simp [hg]
        · exact ih g (hg ▸ h ▸ List.mem_cons_self g₁ gs)
        · exact ih g (h ▸ List.mem_cons_of_mem g₁ hg)
      · simp [hc] at hg
        rcases hg with hg | hg
        · intro hmem
          rw [hg] at hmem
          rcases List.mem_cons.mp hmem with h₁ | h₁
          · exact hc h₁.symm
          · exact ih g₁ (h ▸ List.mem_cons_self g₁ gs) h₁
        · exact ih g (h ▸ List.mem_cons_of_mem g₁ hg)

/-- Every character of every split group is a character of the input. -/
theorem splitOnChar_mem_subset (sep : Char) :
    ∀ cs, ∀ g ∈ splitOnChar sep cs, ∀ ch ∈ g, ch ∈ cs := by
  intro cs
  induction cs with
  | nil => simp [splitOnChar]
  | cons c rest ih =>
    intro g hg ch hch
    rw [splitOnChar] at hg
    rcases h : splitOnChar sep rest with _ | ⟨g₁, gs⟩
    · exact absurd h (splitOnChar_ne_nil sep rest)
    · rw [h] at hg
      by_cases hc : c = sep
      · simp [hc] at hg
        rcases hg with hg | hg | hg
        · rw [hg] at hch; cases hch
        · exact List.mem_cons_of_mem c (ih g (hg ▸ h ▸ List.mem_cons_self g₁ gs) ch hch)
        · exact List.mem_cons_of_mem c (ih g (h ▸ List.mem_cons_of_mem g₁ hg) ch hch)
      · simp [hc] at hg
        rcases hg with hg | hg
        · rw [hg] at hch
          rcases List.mem_cons.mp hch with h₁ | h₁
          · exact h₁ ▸ List.mem_cons_self c rest
          · exact List.mem_cons_of_mem c
              (ih g₁ (h ▸ List.mem_cons_self g₁ gs) ch h₁)
        · exact List.mem_cons_of_mem c (ih g (h ▸ List.mem_cons_of_mem g₁ hg) ch hch)

/-- Joining the split groups restores the input. -/
theorem joinSepChar_splitOnChar (sep : Char) :
    ∀ cs, joinSepChar sep (splitOnChar sep cs) = cs := by
  intro cs
  induction cs with
  | nil => simp [splitOnChar, joinSepChar]
  | cons c rest ih =>
    rw [splitOnChar]
    rcases h : splitOnChar sep rest with _ | ⟨g, gs⟩
    · exact absurd h (splitOnChar_ne_nil sep rest)
    · rw [h] at ih
      by_cases hc : c = sep
      · simp only [hc, if_true]
        cases gs with
        | nil => simp [joinSepChar] at ih ⊢; exact ih
        | cons g₁ gs₁ => simp [joinSepChar] at ih ⊢; exact ih
      · simp only [hc, if_false]
        cases gs with
        | nil => simp [joinSepChar] at ih ⊢; exact ih
        | cons g₁ gs₁ => simp [joinSepChar] at ih ⊢; exact ih

/-! ## Generalized key parsing -/

/-- Taking while a predicate holds, across a boundary where it fails,
yields exactly the prefix. -/
theorem takeWhile_append_boundary (p : Char → Bool) :
    ∀ xs ys, (∀ a ∈ xs, p a = true) → (∀ b bs, ys = b :: bs → p b = false) →
      (xs ++ ys).takeWhile p = xs ∧ (xs ++ ys).dropWhile p = ys := by
  intro xs ys hxs hys
  induction xs with
  | nil =>
    cases ys with
    | nil => simp
    | cons b bs =>
      have hb := hys b bs rfl
      simp [List.takeWhile_cons, List.dropWhile_cons, hb]
  | cons a xs ih =>
    have ha := hxs a (List.mem_cons_self a xs)
    have := ih (fun x hx => hxs x (List.mem_cons_of_mem a hx))
    simp [List.takeWhile_cons, List.dropWhile_cons, ha, this.1, this.2]

/-- Component-sequence rendering decomposed at its first component. -/
theorem renderDComps_cons (op cl : Char) (c : DComp) (spec : List DComp) :
    renderDComps op cl (c :: spec) = c.nm ++ renderAfter op cl c.runs spec := by
  cases spec with
  | nil => simp [renderDComps, renderAfter, joinSepChar, renderDComp]
  | cons c₁ spec₁ =>
    simp only [renderDComps, List.map_cons, joinSepChar, renderDComp, renderAfter]
    simp [List.append_assoc]

/-- The fuel-driven delimited parser reads back exactly the tokens of a
well-formed rendered component sequence, in both of its states. -/
theorem parseDGo_render_spec (op cl : Char) (hop : op ≠ '.') (hcl : isDig cl = false) :
    ∀ fuel,
      (∀ runs spec, WfRuns runs → WfSpec op spec →
        (renderAfter op cl runs spec).length + 1 ≤ fuel →
        parseDGo op cl fuel false (renderAfter op cl runs spec) =
          some (toksAfter runs spec)) ∧
      (∀ c spec, WfDComp op c → WfSpec op spec →
        (renderDComps op cl (c :: spec)).length + 1 ≤ fuel →
        parseDGo op cl fuel true (renderDComps op cl (c :: spec)) =
          some (toksOfDComps (c :: spec))) := by
  have hra_cons : ∀ ds runs spec, renderAfter op cl (ds :: runs) spec =
      op :: (ds ++ (cl :: renderAfter op cl runs spec)) := by
    intro ds runs spec
    simp [renderAfter, bracketizeWith, List.append_assoc]
  have htoks_cons : ∀ (c : DComp) spec,
      toksOfDComps (c :: spec) = Tok.field ⟨c.nm⟩ :: toksAfter c.runs spec := by
    intro c spec
    simp [toksOfDComps, toksAfter]
  intro fuel
  induction fuel using Nat.strong_induction_on with
  | _ fuel ih =>
    cases fuel with
    | zero =>
      constructor
      · intro runs spec _ _ hlen
        omega
      · intro c spec _ _ hlen
        omega
    | succ f =>
      have hfalse : ∀ runs spec, WfRuns runs → WfSpec op spec →
          (renderAfter op cl runs spec).length + 1 ≤ f + 1 →
          parseDGo op cl (f + 1) false (renderAfter op cl runs spec) =
            some (toksAfter runs spec) := by
        intro runs spec hruns hspec hlen
        cases runs with
        | nil =>
          cases spec with
          | nil => simp [renderAfter, toksAfter, toksOfDComps, parseDGo]
          | cons c spec₁ =>
            have hra : renderAfter op cl [] (c :: spec₁) =
                '.' :: renderDComps op cl (c :: spec₁) := by
              simp [renderAfter]
            rw [hra] at hlen ⊢
            rw [parseDGo]
            simp only [if_pos rfl]
            have hrec := (ih f (by omega)).2 c spec₁
              (hspec c (List.mem_cons_self c spec₁))
              (fun x hx => hspec x (List.mem_cons_of_mem c hx))
              (by simp at hlen; omega)
            rw [hrec]
            simp [toksAfter]
        | cons ds runs₁ =>
          obtain ⟨hdne, hddig⟩ := hruns ds (List.mem_cons_self ds runs₁)
          have hruns₁ : WfRuns runs₁ := fun x hx => hruns x (List.mem_cons_of_mem ds hx)
          rw [hra_cons] at hlen ⊢
          have hde : ds.isEmpty = false := by
            cases ds with
            | nil => exact absurd rfl hdne
            | cons a l => rfl
          have hlen₁ : (renderAfter op cl runs₁ spec).length + 1 ≤ f := by
            simp at hlen
            omega
          have hrec := (ih f (by omega)).1 runs₁ spec hruns₁ hspec hlen₁
          have htw := takeWhile_append_boundary isDig ds (cl :: renderAfter op cl runs₁ spec)
            hddig (by
              intro b bs hb
              cases hb
              exact hcl)
          rw [parseDGo]
          rw [if_neg (show ¬(op = '.') from hop)]
          rw [if_pos rfl]
          rw [htw.1, htw.2]
          simp [hde, hrec, toksAfter]
      constructor
      · exact hfalse
      · intro c spec hc hspec hlen
        obtain ⟨hnm, hnmch, hcr⟩ := hc
        rw [renderDComps_cons] at hlen ⊢
        rw [parseDGo]
        have htw := takeWhile_append_boundary (nameChar op) c.nm
          (renderAfter op cl c.runs spec)
          (by
            intro a ha
            have := hnmch a ha
            simp [nameChar, this.1, this.2])
          (by
            intro b bs hb
            cases hcr' : c.runs with
            | nil =>
              cases hspec' : spec with
              | nil =>
                rw [hcr', hspec'] at hb
                simp [renderAfter] at hb
              | cons c₁ spec₁ =>
                rw [hcr', hspec'] at hb
                have : renderAfter op cl [] (c₁ :: spec₁) =
                    '.' :: renderDComps op cl (c₁ :: spec₁) := by
                  simp [renderAfter]
                rw [this] at hb
                cases hb
                simp [nameChar]
            | cons ds runs₁ =>
              rw [hcr'] at hb
              rw [hra_cons] at hb
              cases hb
              simp [nameChar])
        simp only [htw.1, htw.2]
        simp only [List.isEmpty_eq_true, if_neg hnm]
        have hrec := (ih f (by omega)).1 c.runs spec hcr hspec (by
          have hlb : c.nm.length ≥ 1 := by
            cases hn : c.nm with
            | nil => exact absurd hn hnm
            | cons a l => simp
          simp at hlen
          omega)
        rw [hrec, htoks_cons]
        simp

/-- Parsing a rendered well-formed component sequence yields exactly its
tokens. -/
theorem parseKeyD_renderDComps (op cl : Char) (hop : op ≠ '.') (hcl : isDig cl = false)
    (c : DComp) (spec : List DComp) (hc : WfDComp op c) (hspec : WfSpec op spec) :
    parseKeyD op cl ⟨renderDComps op cl (c :: spec)⟩ = some (toksOfDComps (c :: spec)) := by
  rw [parseKeyD]
  exact (parseDGo_render_spec op cl hop hcl _).2 c spec hc hspec (by simp)

/-! ## Underscore conversion lemmas -/

/-- Joining two nonempty group lists splits as a join around one
separator. -/
theorem joinSepChar_append (sep : Char) :
    ∀ xs ys, xs ≠ [] → ys ≠ [] →
      joinSepChar sep (xs ++ ys) = joinSepChar sep xs ++ sep :: joinSepChar sep ys := by
  intro xs
  induction xs with
  | nil => intro ys h _; exact absurd rfl h
  | cons g xs ih =>
    intro ys _ hys
    cases xs with
    | nil =>
      cases ys with
      | nil => exact absurd rfl hys
      | cons g₁ ys₁ => simp [joinSepChar]
    | cons g₁ xs₁ =>
      have := ih ys (by simp) hys
      rw [List.cons_append, joinSepChar]
      rw [show (g₁ :: xs₁) ++ ys = g₁ :: (xs₁ ++ ys) from rfl] at this ⊢
      rw [joinSepChar]
      simp only [this]
      simp [List.append_assoc]

/-- Every character of the trailing digit run is a digit. -/
theorem trailingDigits_all_dig (cs : List Char) :
    ∀ ch ∈ trailingDigits cs, isDig ch = true := by
  intro ch hch
  rw [trailingDigits, List.mem_reverse] at hch
  exact List.mem_takeWhile_imp hch

/-- A character list is its base followed by its trailing digit run. -/
theorem base_append_trailingDigits (cs : List Char) :
    cs.take (cs.length - (trailingDigits cs).length) ++ trailingDigits cs = cs := by
  have hsplit : (cs.reverse.dropWhile isDig).reverse ++ trailingDigits cs = cs := by
    rw [trailingDigits, ← List.reverse_append, List.takeWhile_append_dropWhile,
      List.reverse_reverse]
  have hlen : (cs.reverse.dropWhile isDig).reverse.length =
      cs.length - (trailingDigits cs).length := by
    have h₁ : (cs.reverse.dropWhile isDig).reverse.length + (trailingDigits cs).length =
        cs.length := by
      rw [← List.length_append, hsplit]
    omega
  have htake : cs.take (cs.length - (trailingDigits cs).length) =
      (cs.reverse.dropWhile isDig).reverse := by
    rw [← hlen]
    calc cs.take (cs.reverse.dropWhile isDig).reverse.length
        = ((cs.reverse.dropWhile isDig).reverse ++ trailingDigits cs).take
            (cs.reverse.dropWhile isDig).reverse.length := by rw [hsplit]
      _ = (cs.reverse.dropWhile isDig).reverse := List.take_left ..
  rw [htake, hsplit]

/-- A list that is not all digits has a nonempty base before its trailing
digit run. -/
theorem base_ne_nil_of_not_all_dig (cs : List Char) (h : cs.all isDig = false) :
    cs.take (cs.length - (trailingDigits cs).length) ≠ [] := by
  intro hbase
  have hsplit := base_append_trailingDigits cs
  rw [hbase] at hsplit
  simp at hsplit
  have : cs.all isDig = true := by
    rw [List.all_eq_true]
    intro ch hch
    rw [← hsplit] at hch
    exact trailingDigits_all_dig cs ch hch
  rw [this] at h
  cases h

/-- Underscore parsing only succeeds when every component is nonempty. -/
theorem parseUComps_ne_nil :
    ∀ comps toks, parseUComps comps = some toks → ∀ g ∈ comps, g ≠ [] := by
  intro comps
  induction comps with
  | nil => simp
  | cons comp rest ih =>
    intro toks hp g hg
    cases rest with
    | nil =>
      rw [parseUComps] at hp
      rcases List.mem_cons.mp hg with h₁ | h₁
      · subst h₁
        intro hnil
        rw [hnil] at hp
        simp at hp
      · cases h₁
    | cons c₁ rest₁ =>
      rw [parseUComps] at hp
      by_cases hemp : comp.isEmpty
      · rw [if_pos hemp] at hp
        cases hp
      · rw [if_neg hemp] at hp
        rcases List.mem_cons.mp hg with h₁ | h₁
        · subst h₁
          intro hnil
          rw [hnil] at hemp
          exact hemp rfl
        · by_cases hdig : comp.all isDig
          · rw [if_pos hdig] at hp
            cases hrest : parseUComps (c₁ :: rest₁) with
            | none => rw [hrest] at hp; cases hp
            | some toks₁ => exact ih toks₁ hrest g h₁
          · rw [if_neg hdig] at hp
            cases hft : fieldToks comp with
            | none => rw [hft] at hp; cases hp
            | some fts =>
              rw [hft] at hp
              simp at hp
              cases hrest : parseUComps (c₁ :: rest₁) with
              | none => rw [hrest] at hp; simp at hp
              | some toks₁ => exact ih toks₁ hrest g h₁

/-- Underscore parsing of a prefix of separated all-digit components
prepends their index tokens. -/
theorem parseUComps_digit_prefix :
    ∀ ds rest, (∀ d ∈ ds, d ≠ [] ∧ d.all isDig = true) →
      parseUComps (ds ++ rest) =
        (parseUComps rest).map
          ((ds.map (fun d => Tok.idx (digitsToNat d) false)) ++ ·) := by
  intro ds
  induction ds with
  | nil =>
    intro rest _
    cases h : parseUComps rest <;> simp [h]
  | cons d ds ih =>
    intro rest hds
    obtain ⟨hdne, hddig⟩ := hds d (List.mem_cons_self d ds)
    have hdemp : d.isEmpty = false := by
      cases d with
      | nil => exact absurd rfl hdne
      | cons a l => rfl
    have ihds := ih rest (fun x hx => hds x (List.mem_cons_of_mem d hx))
    cases hsh : ds ++ rest with
    | nil =>
      have hds0 : ds = [] := by
        cases ds with
        | nil => rfl
        | cons a l => cases hsh
      have hrest0 : rest = [] := by
        cases ds with
        | nil => exact hsh
        | cons a l => cases hsh
      subst hds0
      subst hrest0
      simp [parseUComps, hdemp, hddig]
    | cons c₁ rest₁ =>
      rw [show (d :: ds) ++ rest = d :: (ds ++ rest) from rfl, hsh, parseUComps]
      rw [show c₁ :: rest₁ = ds ++ rest from hsh.symm]
      rw [if_neg (by rw [hdemp]; exact Bool.false_ne_true), if_pos hddig, ihds]
      cases parseUComps rest <;> simp

/-- The token list of successful dotted-name parsing: one field per
sub-name, all nonempty. -/
theorem fieldToks_eq (cs : List Char) (fts : List Tok) (h : fieldToks cs = some fts) :
    fts = (splitOnChar '.' cs).map (fun nm => Tok.field ⟨nm⟩) ∧
      ∀ sub ∈ splitOnChar '.' cs, sub ≠ [] := by
  rw [fieldToks] at h
  by_cases hemp : (splitOnChar '.' cs).any List.isEmpty
  · rw [if_pos hemp] at h
    cases h
  · rw [if_neg hemp] at h
    refine ⟨(Option.some.inj h).symm, ?_⟩
    intro sub hsub hnil
    rw [List.any_eq_true] at hemp
    exact hemp ⟨sub, hsub, by simp [hnil]⟩

/-- Rendering the component sequence of a dotted name with final digit
runs. -/
theorem nameSpec_render (op cl : Char) :
    ∀ subs runs, subs ≠ [] →
      renderDComps op cl (nameSpec subs runs) =
        joinSepChar '.' subs ++ ((runs.map (bracketizeWith op cl)).flatten) := by
  intro subs
  induction subs with
  | nil => intro runs h; exact absurd rfl h
  | cons s subs ih =>
    intro runs _
    cases subs with
    | nil => simp [nameSpec, renderDComps, joinSepChar, renderDComp]
    | cons s₁ subs₁ =>
      have hns : nameSpec (s₁ :: subs₁) runs ≠ [] := by
        cases subs₁ <;> simp [nameSpec]
      rw [show nameSpec (s :: s₁ :: subs₁) runs =
        (⟨s, []⟩ : DComp) :: nameSpec (s₁ :: subs₁) runs from rfl]
      rw [renderDComps]
      rw [List.map_cons]
      rw [show joinSepChar '.' ((renderDComp op cl ⟨s, []⟩) ::
          (nameSpec (s₁ :: subs₁) runs).map (renderDComp op cl)) =
        renderDComp op cl ⟨s, []⟩ ++ '.' ::
          joinSepChar '.' ((nameSpec (s₁ :: subs₁) runs).map (renderDComp op cl)) from by
        cases hm : (nameSpec (s₁ :: subs₁) runs).map (renderDComp op cl) with
        | nil => exact absurd (List.map_eq_nil_iff.mp hm) hns
        | cons r rs => rw [joinSepChar]]
      rw [show joinSepChar '.' ((nameSpec (s₁ :: subs₁) runs).map (renderDComp op cl)) =
        renderDComps op cl (nameSpec (s₁ :: subs₁) runs) from rfl]
      rw [ih runs (by simp)]
      rw [show joinSepChar '.' (s :: s₁ :: subs₁) =
        s ++ '.' :: joinSepChar '.' (s₁ :: subs₁) from rfl]
      simp [renderDComp, List.append_assoc]

/-- Tokens of the component sequence of a dotted name with final digit
runs. -/
theorem nameSpec_toks :
    ∀ subs runs, subs ≠ [] →
      toksOfDComps (nameSpec subs runs) =
        subs.map (fun nm => Tok.field ⟨nm⟩) ++
          runs.map (fun ds => Tok.idx (digitsToNat ds) false) := by
  intro subs
  induction subs with
  | nil => intro runs h; exact absurd rfl h
  | cons s subs ih =>
    intro runs _
    cases subs with
    | nil => simp [nameSpec, toksOfDComps]
    | cons s₁ subs₁ =>
      rw [show nameSpec (s :: s₁ :: subs₁) runs =
        (⟨s, []⟩ : DComp) :: nameSpec (s₁ :: subs₁) runs from rfl]
      rw [show toksOfDComps ((⟨s, []⟩ : DComp) :: nameSpec (s₁ :: subs₁) runs) =
        Tok.field ⟨s⟩ :: toksOfDComps (nameSpec (s₁ :: subs₁) runs) from by
          simp [toksOfDComps]]
      rw [ih runs (by simp)]
      simp

/-- The component sequence of a nonempty dotted name is nonempty. -/
theorem nameSpec_ne_nil (subs runs : List (List Char)) (h : subs ≠ []) :
    nameSpec subs runs ≠ [] := by
  cases subs with
  | nil => exact absurd rfl h
  | cons s subs => cases subs <;> simp [nameSpec]

/-- Well-formedness of the component sequence of a dotted name. -/
theorem nameSpec_wf (op : Char) :
    ∀ subs runs, (∀ sub ∈ subs, sub ≠ [] ∧ ∀ ch ∈ sub, ch ≠ '.' ∧ ch ≠ op) →
      WfRuns runs → WfSpec op (nameSpec subs runs) := by
  intro subs
  induction subs with
  | nil => intro runs _ _ c hc; cases hc
  | cons s subs ih =>
    intro runs hsubs hruns c hc
    cases subs with
    | nil =>
      simp [nameSpec] at hc
      subst hc
      obtain ⟨h₁, h₂⟩ := hsubs s (List.mem_cons_self s [])
      exact ⟨h₁, h₂, hruns⟩
    | cons s₁ subs₁ =>
      rw [show nameSpec (s :: s₁ :: subs₁) runs =
        (⟨s, []⟩ : DComp) :: nameSpec (s₁ :: subs₁) runs from rfl] at hc
      rcases List.mem_cons.mp hc with h₁ | h₁
      · subst h₁
        obtain ⟨h₁, h₂⟩ := hsubs s (List.mem_cons_self s (s₁ :: subs₁))
        exact ⟨h₁, h₂, fun ds hds => absurd hds (List.not_mem_nil ds)⟩
      · exact ih runs (fun x hx => hsubs x (List.mem_cons_of_mem s hx)) hruns c h₁

/-- Rendering distributes over appending nonempty component sequences. -/
theorem renderDComps_append (op cl : Char) (A B : List DComp) (hA : A ≠ []) (hB : B ≠ []) :
    renderDComps op cl (A ++ B) = renderDComps op cl A ++ '.' :: renderDComps op cl B := by
  rw [renderDComps, renderDComps, renderDComps, List.map_append]
  exact joinSepChar_append '.' (A.map (renderDComp op cl)) (B.map (renderDComp op cl))
    (by simpa using hA) (by simpa using hB)

/-- Tokens distribute over appending component sequences. -/
theorem toksOfDComps_append (A B : List DComp) :
    toksOfDComps (A ++ B) = toksOfDComps A ++ toksOfDComps B := by
  simp [toksOfDComps]

/-- Glue stripping distributes over appending. -/
theorem stripGlue_append (a b : List Tok) :
    stripGlue (a ++ b) = stripGlue a ++ stripGlue b := by
  simp [stripGlue]

/-- Field tokens are unchanged by glue stripping. -/
theorem stripGlue_fields (subs : List (List Char)) :
    stripGlue (subs.map (fun nm => Tok.field ⟨nm⟩)) =
      subs.map (fun nm => Tok.field ⟨nm⟩) := by
  simp [stripGlue, List.map_map]

/-- Separated index tokens are unchanged by glue stripping. -/
theorem stripGlue_idxs (ds : List (List Char)) :
    stripGlue (ds.map (fun d => Tok.idx (digitsToNat d) false)) =
      ds.map (fun d => Tok.idx (digitsToNat d) false) := by
  simp [stripGlue, List.map_map]

/-- The concrete bracketizer is the delimited one at brackets. -/
theorem bracketize_eq : bracketize = bracketizeWith '[' ']' := rfl

/-- Conversion of a nonempty component list is nonempty. -/
theorem convCompsGo_ne_nil (f : Nat) :
    ∀ comps, comps ≠ [] → convCompsGo (f + 1) comps ≠ [] := by
  intro comps hne
  cases comps with
  | nil => exact absurd rfl hne
  | cons comp rest =>
    cases rest with
    | nil =>
      rw [convCompsGo]
      by_cases h : comp.all isDig = true
      · rw [if_pos h]
        simp
      · rw [if_neg h]
        by_cases hds : (trailingDigits comp).isEmpty = true
        · rw [if_pos hds]
          simp
        · rw [if_neg hds]
          simp
    | cons c₁ rest₁ =>
      rw [convCompsGo]
      by_cases h : comp.all isDig = true
      · rw [if_pos h]
        simp
      · rw [if_neg h]
        cases hdw : (c₁ :: rest₁).dropWhile (List.all · isDig) with
        | nil => simp [hdw]
        | cons y ys => simp [hdw]

/-- Conversion of underscore components renders the component sequence of
the path they parse to: the converted key is the bracket rendering of the
same Key Path. -/
theorem convComps_renders :
    ∀ n comps fuel toks, comps.length ≤ n → comps ≠ [] → comps.length < fuel →
      parseUComps comps = some toks →
      (∀ g ∈ comps, ∀ ch ∈ g, ch ≠ '[' ∧ ch ≠ ']') →
      (∀ c₀ cr, comps = c₀ :: cr → c₀.all isDig = false) →
      ∃ spec, WfSpec '[' spec ∧ spec ≠ [] ∧
        joinSepChar '.' (convCompsGo fuel comps) = renderDComps '[' ']' spec ∧
        stripGlue toks = toksOfDComps spec := by
  intro n
  induction n using Nat.strong_induction_on with
  | _ n ih =>
    intro comps fuel toks hn hne hfuel hparse hchars hhead
    obtain ⟨comp, rest, rfl⟩ : ∃ c r, comps = c :: r := by
      cases comps with
      | nil => exact absurd rfl hne
      | cons c r => exact ⟨c, r, rfl⟩
    obtain ⟨f, rfl⟩ : ∃ f, fuel = f + 1 := ⟨fuel - 1, by omega⟩
    have hcd : comp.all isDig = false := hhead comp rest rfl
    have hcompne : comp ≠ [] := by
      intro hnil
      rw [hnil] at hcd
      cases hcd
    have hcemp : comp.isEmpty = false := by
      cases comp with
      | nil => exact absurd rfl hcompne
      | cons a l => rfl
    have hsubwf : ∀ cs : List Char, (∀ ch ∈ cs, ch ≠ '[' ∧ ch ≠ ']') →
        (∀ sub ∈ splitOnChar '.' cs, sub ≠ []) →
        ∀ sub ∈ splitOnChar '.' cs, sub ≠ [] ∧ ∀ ch ∈ sub, ch ≠ '.' ∧ ch ≠ '[' := by
      intro cs hcs hsubs sub hsub
      refine ⟨hsubs sub hsub, ?_⟩
      intro ch hch
      constructor
      · intro heq
        exact splitOnChar_not_mem '.' cs sub hsub (heq ▸ hch)
      · exact (hcs ch (splitOnChar_mem_subset '.' cs sub hsub ch hch)).1
    cases rest with
    | nil =>
      rw [parseUComps, if_neg (by rw [hcemp]; exact Bool.false_ne_true),
        if_neg (by rw [hcd]; exact Bool.false_ne_true)] at hparse
      dsimp only at hparse
      cases hft : fieldToks (comp.take (comp.length - (trailingDigits comp).length)) with
      | none => rw [hft] at hparse; cases hparse
      | some fts =>
        rw [hft] at hparse
        simp only [Option.map_some', Option.some.injEq] at hparse
        obtain ⟨hfts, hsubs⟩ := fieldToks_eq _ fts hft
        have hbsub : ∀ ch ∈ comp.take (comp.length - (trailingDigits comp).length),
            ch ∈ comp := fun ch hch => List.take_subset _ _ hch
        have hwfsubs := hsubwf (comp.take (comp.length - (trailingDigits comp).length))
          (fun ch hch => hchars comp (List.mem_cons_self comp []) ch (hbsub ch hch)) hsubs
        have hsubsne : splitOnChar '.' (comp.take (comp.length -
            (trailingDigits comp).length)) ≠ [] :=
          splitOnChar_ne_nil '.' _
        by_cases hdse : (trailingDigits comp).isEmpty
        · have hds0 : trailingDigits comp = [] := by
            cases h : trailingDigits comp with
            | nil => rfl
            | cons a l => rw [h] at hdse; cases hdse
          have hbase : comp.take (comp.length - (trailingDigits comp).length) = comp := by
            rw [hds0]
            simp
          rw [if_pos hdse] at hparse
          refine ⟨nameSpec (splitOnChar '.' comp) [], ?_, ?_, ?_, ?_⟩
          · exact nameSpec_wf '[' _ [] (hbase ▸ hwfsubs) (fun ds hds => absurd hds
              (List.not_mem_nil ds))
          · exact nameSpec_ne_nil _ _ (splitOnChar_ne_nil '.' comp)
          · rw [convCompsGo, if_neg (by rw [hcd]; exact Bool.false_ne_true), if_pos hdse]
            rw [nameSpec_render '[' ']' _ [] (splitOnChar_ne_nil '.' comp)]
            simp [joinSepChar, joinSepChar_splitOnChar]
          · rw [← hparse, hfts, hbase, stripGlue_fields,
              nameSpec_toks _ [] (splitOnChar_ne_nil '.' comp)]
            simp
        · rw [if_neg hdse] at hparse
          have hdsne : trailingDigits comp ≠ [] := by
            intro h
            rw [h] at hdse
            exact hdse rfl
          refine ⟨nameSpec (splitOnChar '.' (comp.take (comp.length -
            (trailingDigits comp).length))) [trailingDigits comp], ?_, ?_, ?_, ?_⟩
          · refine nameSpec_wf '[' _ _ hwfsubs ?_
            intro ds hds
            rcases List.mem_singleton.mp hds with rfl
            exact ⟨hdsne, trailingDigits_all_dig comp⟩
          · exact nameSpec_ne_nil _ _ hsubsne
          · rw [convCompsGo, if_neg (by rw [hcd]; exact Bool.false_ne_true), if_neg hdse]
            rw [nameSpec_render '[' ']' _ _ hsubsne]
            simp [joinSepChar, joinSepChar_splitOnChar, bracketize_eq]
          · rw [← hparse, stripGlue_append, hfts, stripGlue_fields,
              nameSpec_toks _ _ hsubsne]
            simp [stripGlue]
    | cons c₁ rest₁ =>
      rw [parseUComps, if_neg (by rw [hcemp]; exact Bool.false_ne_true),
        if_neg (by rw [hcd]; exact Bool.false_ne_true)] at hparse
      cases hft : fieldToks comp with
      | none => rw [hft] at hparse; cases hparse
      | some fts =>
        rw [hft] at hparse
        replace hparse : (parseUComps (c₁ :: rest₁)).map (fts ++ ·) = some toks := hparse
        obtain ⟨hfts, hsubs⟩ := fieldToks_eq comp fts hft
        have hwfsubs := hsubwf comp
          (hchars comp (List.mem_cons_self comp (c₁ :: rest₁))) hsubs
        have hsubsne : splitOnChar '.' comp ≠ [] := splitOnChar_ne_nil '.' comp
        cases hp₁ : parseUComps (c₁ :: rest₁) with
        | none => rw [hp₁] at hparse; cases hparse
        | some toks₁ =>
          rw [hp₁] at hparse
          simp only [Option.map_some', Option.some.injEq] at hparse
          have hcompsne := parseUComps_ne_nil (c₁ :: rest₁) toks₁ hp₁
          have hsplit : (c₁ :: rest₁).takeWhile (List.all · isDig) ++
              (c₁ :: rest₁).dropWhile (List.all · isDig) = c₁ :: rest₁ :=
            List.takeWhile_append_dropWhile _ _
          have hdprops : ∀ d ∈ (c₁ :: rest₁).takeWhile (List.all · isDig),
              d ≠ [] ∧ d.all isDig = true := by
            intro d hd
            have hmem := @List.mem_takeWhile_imp (List Char)
              (fun x : List Char => x.all isDig) (c₁ :: rest₁) d hd
            exact ⟨hcompsne d ((List.takeWhile_sublist _).mem hd), hmem⟩
          have hwfds : WfRuns ((c₁ :: rest₁).takeWhile (List.all · isDig)) := by
            intro d hd
            obtain ⟨h₁, h₂⟩ := hdprops d hd
            exact ⟨h₁, fun ch hch => List.all_eq_true.mp h₂ ch hch⟩
          rw [← hsplit, parseUComps_digit_prefix _ _ hdprops] at hp₁
          cases hp₂ : parseUComps ((c₁ :: rest₁).dropWhile (List.all · isDig)) with
          | none => rw [hp₂] at hp₁; cases hp₁
          | some toks₂ =>
            rw [hp₂] at hp₁
            simp only [Option.map_some', Option.some.injEq] at hp₁
            cases hdw : (c₁ :: rest₁).dropWhile (List.all · isDig) with
            | nil =>
              rw [hdw, parseUComps] at hp₂
              have htoks₂ : toks₂ = [] := by
                cases hp₂
                rfl
              refine ⟨nameSpec (splitOnChar '.' comp)
                ((c₁ :: rest₁).takeWhile (List.all · isDig)), ?_, ?_, ?_, ?_⟩
              · exact nameSpec_wf '[' _ _ hwfsubs hwfds
              · exact nameSpec_ne_nil _ _ hsubsne
              · rw [convCompsGo, if_neg (by rw [hcd]; exact Bool.false_ne_true)]
                simp only [hdw]
                rw [nameSpec_render '[' ']' _ _ hsubsne]
                simp [joinSepChar, joinSepChar_splitOnChar, bracketize_eq]
              · rw [← hparse, ← hp₁, htoks₂, stripGlue_append, hfts, stripGlue_fields,
                  nameSpec_toks _ _ hsubsne]
                simp [stripGlue_idxs]
            | cons r₁ rs₁ =>
              have hr₁ : r₁.all isDig = false := by
                have h₂ := List.head?_dropWhile_not (List.all · isDig) (c₁ :: rest₁)
                rw [hdw] at h₂
                exact h₂
              have hlen₂ : (r₁ :: rs₁).length ≤ 1 + rest₁.length := by
                have h₁ : ((c₁ :: rest₁).takeWhile (List.all · isDig)).length +
                    ((c₁ :: rest₁).dropWhile (List.all · isDig)).length =
                    (c₁ :: rest₁).length := by
                  rw [← List.length_append, hsplit]
                rw [hdw] at h₁
                simp at h₁ ⊢
                omega
              have hlenc : (comp :: c₁ :: rest₁).length ≤ n := hn
              obtain ⟨f₁, rfl⟩ : ∃ f₁, f = f₁ + 1 := by
                refine ⟨f - 1, ?_⟩
                simp at hfuel
                omega
              obtain ⟨spec₁, hwf₁, hne₁, hrender₁, htoks₁⟩ :=
                ih (r₁ :: rs₁).length (by simp at hlenc hlen₂ ⊢; omega)
                  (r₁ :: rs₁) (f₁ + 1) toks₂ (le_refl _) (by simp)
                  (by simp at hlen₂ hfuel ⊢; omega)
                  (hdw ▸ hp₂)
                  (by
                    intro g hg ch hch
                    have hgmem : g ∈ c₁ :: rest₁ :=
                      (List.dropWhile_sublist _).mem (hdw ▸ hg)
                    exact hchars g (List.mem_cons_of_mem comp hgmem) ch hch)
                  (by
                    intro c₀ cr hc₀
                    cases hc₀
                    exact hr₁)
              refine ⟨nameSpec (splitOnChar '.' comp)
                ((c₁ :: rest₁).takeWhile (List.all · isDig)) ++ spec₁, ?_, ?_, ?_, ?_⟩
              · intro c hc
                rcases List.mem_append.mp hc with h₁ | h₁
                · exact nameSpec_wf '[' _ _ hwfsubs hwfds c h₁
                · exact hwf₁ c h₁
              · simp [nameSpec_ne_nil _ _ hsubsne]
              · rw [convCompsGo, if_neg (by rw [hcd]; exact Bool.false_ne_true)]
                simp only [hdw]
                obtain ⟨y, ys, hconv⟩ : ∃ y ys, convCompsGo (f₁ + 1) (r₁ :: rs₁) =
                    y :: ys := by
                  cases hcv : convCompsGo (f₁ + 1) (r₁ :: rs₁) with
                  | nil => exact absurd hcv (convCompsGo_ne_nil f₁ (r₁ :: rs₁) (by simp))
                  | cons y ys => exact ⟨y, ys, rfl⟩
                rw [hconv]
                rw [show joinSepChar '.'
                    ((comp ++ (((c₁ :: rest₁).takeWhile
                      (List.all · isDig)).map bracketize).flatten) :: y :: ys) =
                  (comp ++ (((c₁ :: rest₁).takeWhile
                      (List.all · isDig)).map bracketize).flatten) ++
                    '.' :: joinSepChar '.' (y :: ys) from rfl]
                rw [← hconv, hrender₁]
                rw [renderDComps_append '[' ']' _ _ (nameSpec_ne_nil _ _ hsubsne) hne₁]
                rw [nameSpec_render '[' ']' _ _ hsubsne]
                rw [joinSepChar_splitOnChar]
                rfl
              · rw [← hparse, ← hp₁, stripGlue_append, stripGlue_append, hfts,
                  stripGlue_fields, stripGlue_idxs, htoks₁, toksOfDComps_append,
                  nameSpec_toks _ _ hsubsne]
                simp

/-! ## Token paths and rendered keys -/

/-- Delimited rendering distributes over appending token lists. -/
theorem renderRestD_append (op cl : Char) :
    ∀ a b, renderRestD op cl (a ++ b) = renderRestD op cl a ++ renderRestD op cl b := by
  intro a b
  induction a with
  | nil => simp [renderRestD]
  | cons t a ih =>
    cases t with
    | field n => simp [renderRestD, ih]
    | idx i g => simp [renderRestD, ih]

/-- The component collector never returns the empty sequence. -/
theorem toksSpecRuns_ne_nil :
    ∀ rest nm runs, toksSpecRuns nm runs rest ≠ [] := by
  intro rest
  induction rest with
  | nil => intro nm runs; simp [toksSpecRuns]
  | cons t rest ih =>
    intro nm runs
    cases t with
    | idx i g => rw [toksSpecRuns]; exact ih nm (runs ++ [natDigits i])
    | field n => simp [toksSpecRuns]

/-- Rendering the collected components of a token path recovers the
rendering of the path itself. -/
theorem renderDComps_toksSpecRuns (op cl : Char) :
    ∀ rest nm runs, renderDComps op cl (toksSpecRuns nm runs rest) =
      nm ++ (runs.map (bracketizeWith op cl)).flatten ++ renderRestD op cl rest := by
  intro rest
  induction rest with
  | nil =>
    intro nm runs
    simp [toksSpecRuns, renderDComps, joinSepChar, renderDComp, renderRestD]
  | cons t rest ih =>
    intro nm runs
    cases t with
    | idx i g =>
      rw [toksSpecRuns, ih]
      simp [renderRestD, bracketizeWith, List.append_assoc]
    | field n =>
      rw [toksSpecRuns]
      rw [renderDComps_cons]
      rw [show renderAfter op cl runs (toksSpecRuns n.data [] rest) =
        (runs.map (bracketizeWith op cl)).flatten ++
          '.' :: renderDComps op cl (toksSpecRuns n.data [] rest) from by
        cases hts : toksSpecRuns n.data [] rest with
        | nil => exact absurd hts (toksSpecRuns_ne_nil rest n.data [])
        | cons c s => rfl]
      rw [ih]
      simp [renderRestD]

/-- The tokens of the collected components recover the path itself, for
paths whose index flags are clear. -/
theorem toksOfDComps_toksSpecRuns :
    ∀ rest nm runs, (∀ i g, Tok.idx i g ∈ rest → g = false) →
      toksOfDComps (toksSpecRuns nm runs rest) =
        Tok.field ⟨nm⟩ :: (runs.map (fun ds => Tok.idx (digitsToNat ds) false) ++ rest) := by
  intro rest
  induction rest with
  | nil =>
    intro nm runs _
    simp [toksSpecRuns, toksOfDComps]
  | cons t rest ih =>
    intro nm runs hflags
    cases t with
    | idx i g =>
      have hg : g = false := hflags i g (List.mem_cons_self _ _)
      subst hg
      rw [toksSpecRuns, ih nm (runs ++ [natDigits i])
        (fun i₁ g₁ h₁ => hflags i₁ g₁ (List.mem_cons_of_mem _ h₁))]
      simp [digitsToNat_natDigits]
    | field n =>
      rw [toksSpecRuns]
      rw [show toksOfDComps ((⟨nm, runs⟩ : DComp) :: toksSpecRuns n.data [] rest) =
        (Tok.field ⟨nm⟩ :: runs.map (fun ds => Tok.idx (digitsToNat ds) false)) ++
          toksOfDComps (toksSpecRuns n.data [] rest) from by simp [toksOfDComps]]
      rw [ih n.data [] (fun i₁ g₁ h₁ => hflags i₁ g₁ (List.mem_cons_of_mem _ h₁))]
      simp

/-- Characters of a valid name avoid the key grammar. -/
theorem validName_chars (n : String) (h : validName n = true) :
    n.data ≠ [] ∧ ∀ ch ∈ n.data, ch ≠ '.' ∧ ch ≠ '[' ∧ ch ≠ ']' ∧
      ch ≠ '(' ∧ ch ≠ ')' ∧ ch ≠ '_' := by
  rw [validName, Bool.and_eq_true, Bool.and_eq_true] at h
  obtain ⟨⟨hne, hall⟩, _⟩ := h
  constructor
  · intro hnil
    rw [hnil] at hne
    cases hne
  · intro ch hch
    have := List.all_eq_true.mp hall ch hch
    simp only [Bool.and_eq_true, bne_iff_ne] at this
    exact ⟨this.1.1.1.1.1, this.1.1.1.1.2, this.1.1.1.2, this.1.1.2, this.1.2, this.2⟩

/-- A valid name does not end in a digit. -/
theorem validName_last (n : String) (h : validName n = true) :
    ∀ c, n.data.getLast? = some c → isDig c = false := by
  rw [validName, Bool.and_eq_true, Bool.and_eq_true] at h
  obtain ⟨_, hlast⟩ := h
  intro c hc
  rw [hc] at hlast
  simpa using hlast

/-- Digit runs of rendered indices are well-formed. -/
theorem natDigits_run_wf (i : Nat) :
    natDigits i ≠ [] ∧ ∀ ch ∈ natDigits i, isDig ch = true :=
  ⟨natDigits_ne_nil i, natDigits_all_dig i⟩

/-- Well-formedness of the collected components of a path with valid
names. -/
theorem toksSpecRuns_wf (op : Char) (hop : op = '[' ∨ op = '(') :
    ∀ rest nm runs, nm ≠ [] → (∀ ch ∈ nm, ch ≠ '.' ∧ ch ≠ op) →
      (∀ m, Tok.field m ∈ rest → validName m = true) → WfRuns runs →
      WfSpec op (toksSpecRuns nm runs rest) := by
  intro rest
  induction rest with
  | nil =>
    intro nm runs hne hch _ hruns c hc
    simp [toksSpecRuns] at hc
    subst hc
    exact ⟨hne, hch, hruns⟩
  | cons t rest ih =>
    intro nm runs hne hch hnames hruns
    cases t with
    | idx i g =>
      rw [toksSpecRuns]
      refine ih nm (runs ++ [natDigits i]) hne hch
        (fun m hm => hnames m (List.mem_cons_of_mem _ hm)) ?_
      intro ds hds
      rcases List.mem_append.mp hds with h₁ | h₁
      · exact hruns ds h₁
      · rcases List.mem_singleton.mp h₁ with rfl
        exact natDigits_run_wf i
    | field n =>
      rw [toksSpecRuns]
      intro c hc
      rcases List.mem_cons.mp hc with h₁ | h₁
      · subst h₁
        exact ⟨hne, hch, hruns⟩
      · have hnv := hnames n (List.mem_cons_self _ _)
        obtain ⟨hn₁, hn₂⟩ := validName_chars n hnv
        refine ih n.data [] hn₁ ?_ (fun m hm => hnames m (List.mem_cons_of_mem _ hm))
          (fun ds hds => absurd hds (List.not_mem_nil ds)) c h₁
        intro ch hch₁
        have hh := hn₂ ch hch₁
        rcases hop with rfl | rfl
        · exact ⟨hh.1, hh.2.1⟩
        · exact ⟨hh.1, hh.2.2.2.1⟩

/-- Parsing the rendering of a well-formed token path recovers the path:
the delimited grammars and renderers are mutually inverse. -/
theorem parseKeyD_renderKeyD (op cl : Char) (hop : op ≠ '.') (hcl : isDig cl = false)
    (hop₂ : op = '[' ∨ op = '(')
    (n : String) (rest : List Tok)
    (hnames : ∀ m, Tok.field m ∈ (Tok.field n :: rest) → validName m = true)
    (hflags : ∀ i g, Tok.idx i g ∈ rest → g = false) :
    parseKeyD op cl ⟨renderKeyD op cl (Tok.field n :: rest)⟩ =
      some (Tok.field n :: rest) := by
  have hnv := hnames n (List.mem_cons_self _ _)
  obtain ⟨hn₁, hn₂⟩ := validName_chars n hnv
  have hrender : renderKeyD op cl (Tok.field n :: rest) =
      renderDComps op cl (toksSpecRuns n.data [] rest) := by
    rw [renderDComps_toksSpecRuns]
    simp [renderKeyD]
  have hwf : WfSpec op (toksSpecRuns n.data [] rest) := by
    refine toksSpecRuns_wf op hop₂ rest n.data [] hn₁ ?_
      (fun m hm => hnames m (List.mem_cons_of_mem _ hm))
      (fun ds hds => absurd hds (List.not_mem_nil ds))
    intro ch hch
    have hh := hn₂ ch hch
    rcases hop₂ with rfl | rfl
    · exact ⟨hh.1, hh.2.1⟩
    · exact ⟨hh.1, hh.2.2.2.1⟩
  rw [hrender]
  cases hts : toksSpecRuns n.data [] rest with
  | nil => exact absurd hts (toksSpecRuns_ne_nil rest n.data [])
  | cons c spec₁ =>
    rw [parseKeyD_renderDComps op cl hop hcl c spec₁
      (hwf c (hts ▸ List.mem_cons_self c spec₁))
      (fun x hx => hwf x (hts ▸ List.mem_cons_of_mem c hx))]
    rw [← hts, toksOfDComps_toksSpecRuns rest n.data [] hflags]
    simp

/-! ## Detection of rendered keys -/

/-- A key without the opening delimiter contains no index group. -/
theorem hasIndexGroup_of_not_mem (op cl : Char) :
    ∀ cs, op ∉ cs → hasIndexGroup op cl cs = false := by
  intro cs
  induction cs with
  | nil => intro _; rfl
  | cons x rest ih =>
    intro hmem
    rw [hasIndexGroup]
    have hx : ¬x = op := fun h => hmem (h ▸ List.mem_cons_self x rest)
    have hr := ih (fun h => hmem (List.mem_cons_of_mem x h))
    simp [hx, hr]

/-- Characters of a rendered key continuation: the separator, delimiter
and digit characters of index groups (only when an index is present), or
characters of a field name of the path. -/
theorem renderRestD_chars (op cl : Char) :
    ∀ toks ch, ch ∈ renderRestD op cl toks →
      ch = '.' ∨ ((ch = op ∨ ch = cl ∨ isDig ch = true) ∧ ∃ i g, Tok.idx i g ∈ toks) ∨
        ∃ m, Tok.field m ∈ toks ∧ ch ∈ m.data := by
  intro toks
  induction toks with
  | nil => simp [renderRestD]
  | cons t rest ih =>
    intro ch hch
    cases t with
    | field n =>
      rw [renderRestD] at hch
      rcases List.mem_cons.mp hch with h₁ | h₁
      · exact Or.inl h₁
      · rcases List.mem_append.mp h₁ with h₂ | h₂
        · exact Or.inr (Or.inr ⟨n, List.mem_cons_self _ _, h₂⟩)
        · rcases ih ch h₂ with h₃ | ⟨h₃, i, g, h₄⟩ | ⟨m, h₃, h₄⟩
          · exact Or.inl h₃
          · exact Or.inr (Or.inl ⟨h₃, i, g, List.mem_cons_of_mem _ h₄⟩)
          · exact Or.inr (Or.inr ⟨m, List.mem_cons_of_mem _ h₃, h₄⟩)
    | idx i g =>
      rw [renderRestD] at hch
      rcases List.mem_cons.mp hch with h₁ | h₁
      · exact Or.inr (Or.inl ⟨Or.inl h₁, i, g, List.mem_cons_self _ _⟩)
      · rcases List.mem_append.mp h₁ with h₂ | h₂
        · exact Or.inr (Or.inl ⟨Or.inr (Or.inr (natDigits_all_dig i ch h₂)), i, g,
            List.mem_cons_self _ _⟩)
        · rcases List.mem_cons.mp h₂ with h₃ | h₃
          · exact Or.inr (Or.inl ⟨Or.inr (Or.inl h₃), i, g, List.mem_cons_self _ _⟩)
          · rcases ih ch h₃ with h₄ | ⟨h₄, i₁, g₁, h₅⟩ | ⟨m, h₄, h₅⟩
            · exact Or.inl h₄
            · exact Or.inr (Or.inl ⟨h₄, i₁, g₁, List.mem_cons_of_mem _ h₅⟩)
            · exact Or.inr (Or.inr ⟨m, List.mem_cons_of_mem _ h₄, h₅⟩)

/-- Characters of a whole rendered key. -/
theorem renderKeyD_chars (op cl : Char) :
    ∀ toks ch, ch ∈ renderKeyD op cl toks →
      ch = '.' ∨ ((ch = op ∨ ch = cl ∨ isDig ch = true) ∧ ∃ i g, Tok.idx i g ∈ toks) ∨
        ∃ m, Tok.field m ∈ toks ∧ ch ∈ m.data := by
  intro toks ch hch
  cases toks with
  | nil => cases hch
  | cons t rest =>
    cases t with
    | field n =>
      rw [renderKeyD] at hch
      rcases List.mem_append.mp hch with h₁ | h₁
      · exact Or.inr (Or.inr ⟨n, List.mem_cons_self _ _, h₁⟩)
      · rcases renderRestD_chars op cl rest ch h₁ with h₂ | ⟨h₂, i, g, h₃⟩ | ⟨m, h₂, h₃⟩
        · exact Or.inl h₂
        · exact Or.inr (Or.inl ⟨h₂, i, g, List.mem_cons_of_mem _ h₃⟩)
        · exact Or.inr (Or.inr ⟨m, List.mem_cons_of_mem _ h₂, h₃⟩)
    | idx i g =>
      rw [renderKeyD] at hch
      exact renderRestD_chars op cl _ ch hch

/-- A path without indices has no index token. -/
theorem not_idx_mem_of_hasIdx_false (toks : List Tok) (h : hasIdx toks = false) :
    ∀ i g, Tok.idx i g ∉ toks := by
  intro i g hmem
  rw [hasIdx, List.any_eq_false] at h
  have := h (Tok.idx i g) hmem
  simp at this

/-- The rendered key of an index-free path with valid names contains
neither delimiter character of either convention. -/
theorem renderKeyD_noidx_no_delims (op cl : Char) (toks : List Tok)
    (hnoidx : hasIdx toks = false)
    (hnames : ∀ m, Tok.field m ∈ toks → validName m = true) :
    ∀ ch ∈ renderKeyD op cl toks, ch ≠ '[' ∧ ch ≠ ']' ∧ ch ≠ '(' ∧ ch ≠ ')' ∧ ch ≠ '_' := by
  intro ch hch
  rcases renderKeyD_chars op cl toks ch hch with h₁ | ⟨_, i, g, h₂⟩ | ⟨m, h₂, h₃⟩
  · subst h₁
    refine ⟨by decide, by decide, by decide, by decide, by decide⟩
  · exact absurd h₂ (not_idx_mem_of_hasIdx_false toks hnoidx i g)
  · have := (validName_chars m (hnames m h₂)).2 ch h₃
    exact ⟨this.2.1, this.2.2.1, this.2.2.2.1, this.2.2.2.2.1, this.2.2.2.2.2⟩

/-- An index-free rendered key detects as the Underscore convention. -/
theorem detect_render_noidx (op cl : Char) (toks : List Tok)
    (hnoidx : hasIdx toks = false)
    (hnames : ∀ m, Tok.field m ∈ toks → validName m = true) :
    detect_key_convention ⟨renderKeyD op cl toks⟩ = .underscore := by
  have hdelims := renderKeyD_noidx_no_delims op cl toks hnoidx hnames
  rw [detect_key_convention]
  rw [hasIndexGroup_of_not_mem '[' ']' _ (fun h => (hdelims '[' h).1 rfl)]
  rw [hasIndexGroup_of_not_mem '(' ')' _ (fun h => (hdelims '(' h).2.2.1 rfl)]
  rfl

/-- A rendered key containing an index contains the corresponding index
group. -/
theorem renderKeyD_idx_group (op cl : Char) (n : String) (rest : List Tok)
    (i : Nat) (g : Bool) (hmem : Tok.idx i g ∈ rest) :
    HasGroupProp op cl (renderKeyD op cl (Tok.field n :: rest)) := by
  obtain ⟨r₁, r₂, hsplit⟩ := List.append_of_mem hmem
  subst hsplit
  rw [renderKeyD, renderRestD_append]
  rw [show renderRestD op cl (Tok.idx i g :: r₂) =
    op :: (natDigits i ++ cl :: renderRestD op cl r₂) from rfl]
  exact ⟨n.data ++ renderRestD op cl r₁, natDigits i, renderRestD op cl r₂,
    by simp [List.append_assoc], natDigits_ne_nil i, natDigits_all_dig i⟩

/-- A parentheses-rendered key of a valid path never contains an opening
bracket. -/
theorem renderKeyD_paren_no_bracket (toks : List Tok)
    (hnames : ∀ m, Tok.field m ∈ toks → validName m = true) :
    '[' ∉ renderKeyD '(' ')' toks := by
  intro hmem
  rcases renderKeyD_chars '(' ')' toks '[' hmem with h₁ | ⟨h₁, _, _, _⟩ | ⟨m, h₂, h₃⟩
  · cases h₁
  · rcases h₁ with h₂ | h₂ | h₂
    · cases h₂
    · cases h₂
    · cases h₂
  · exact (validName_chars m (hnames m h₂)).2 '[' h₃ |>.2.1 rfl

/-! ## Underscore parsing of index-free rendered keys -/

/-- Splitting a separator-free list yields a single group. -/
theorem splitOnChar_of_not_mem (sep : Char) :
    ∀ cs, sep ∉ cs → splitOnChar sep cs = [cs] := by
  intro cs
  induction cs with
  | nil => intro _; rfl
  | cons c rest ih =>
    intro hmem
    rw [splitOnChar]
    rw [ih (fun h => hmem (List.mem_cons_of_mem c h))]
    have : ¬c = sep := fun h => hmem (h ▸ List.mem_cons_self c rest)
    simp [this]

/-- Splitting a group, a separator and a remainder resumes after the
separator. -/
theorem splitOnChar_append_sep (sep : Char) :
    ∀ g rest, sep ∉ g →
      splitOnChar sep (g ++ sep :: rest) = g :: splitOnChar sep rest := by
  intro g
  induction g with
  | nil =>
    intro rest _
    rw [List.nil_append, splitOnChar]
    cases h : splitOnChar sep rest with
    | nil => exact absurd h (splitOnChar_ne_nil sep rest)
    | cons g₁ gs => simp
  | cons c g ih =>
    intro rest hmem
    rw [List.cons_append, splitOnChar,
      ih rest (fun h => hmem (List.mem_cons_of_mem c h))]
    have : ¬c = sep := fun h => hmem (h ▸ List.mem_cons_self c g)
    simp [this]

/-- Splitting the join of separator-free groups restores the groups. -/
theorem splitOnChar_joinSepChar (sep : Char) :
    ∀ gs, gs ≠ [] → (∀ g ∈ gs, sep ∉ g) →
      splitOnChar sep (joinSepChar sep gs) = gs := by
  intro gs
  induction gs with
  | nil => intro h _; exact absurd rfl h
  | cons g gs ih =>
    intro _ hfree
    cases gs with
    | nil =>
      rw [joinSepChar]
      exact splitOnChar_of_not_mem sep g (hfree g (List.mem_cons_self g []))
    | cons g₁ gs₁ =>
      rw [joinSepChar, splitOnChar_append_sep sep g _ (hfree g (List.mem_cons_self _ _))]
      rw [ih (by simp) (fun x hx => hfree x (List.mem_cons_of_mem g hx))]

/-- The rendering of an index-free path is the dot-join of its field
names. -/
theorem renderKeyD_noidx_join (op cl : Char) :
    ∀ rest n, hasIdx (Tok.field n :: rest) = false →
      renderKeyD op cl (Tok.field n :: rest) =
        joinSepChar '.' (n.data :: fieldNames rest) := by
  intro rest
  induction rest with
  | nil =>
    intro n _
    simp [renderKeyD, renderRestD, fieldNames, joinSepChar]
  | cons t rest ih =>
    intro n hnoidx
    cases t with
    | idx i g => simp [hasIdx] at hnoidx
    | field m =>
      have hnoidx₁ : hasIdx (Tok.field m :: rest) = false := by
        simp [hasIdx] at hnoidx ⊢
        exact hnoidx
      have := ih m hnoidx₁
      rw [renderKeyD] at this ⊢
      rw [show renderRestD op cl (Tok.field m :: rest) =
        '.' :: (m.data ++ renderRestD op cl rest) from rfl]
      rw [show fieldNames (Tok.field m :: rest) = m.data :: fieldNames rest from rfl]
      cases hfn : fieldNames rest with
      | nil =>
        rw [hfn] at this
        rw [show joinSepChar '.' [n.data, m.data] = n.data ++ '.' :: m.data from rfl]
        rw [joinSepChar] at this
        simp at this ⊢
        exact this
      | cons f fs =>
        rw [hfn] at this
        rw [show joinSepChar '.' (n.data :: m.data :: f :: fs) =
          n.data ++ '.' :: joinSepChar '.' (m.data :: f :: fs) from rfl]
        rw [show joinSepChar '.' (m.data :: f :: fs) =
          m.data ++ '.' :: joinSepChar '.' (f :: fs) from rfl]
        rw [joinSepChar] at this
        simp at this ⊢
        exact this

/-- An index-free path is the field tokens of its names. -/
theorem noidx_toks_eq_fields :
    ∀ toks, hasIdx toks = false →
      toks = (fieldNames toks).map (fun nm => Tok.field ⟨nm⟩) := by
  intro toks
  induction toks with
  | nil => intro _; rfl
  | cons t rest ih =>
    intro hnoidx
    cases t with
    | idx i g => simp [hasIdx] at hnoidx
    | field m =>
      have hnoidx₁ : hasIdx rest = false := by
        simp [hasIdx] at hnoidx ⊢
        exact hnoidx
      rw [show fieldNames (Tok.field m :: rest) = m.data :: fieldNames rest from rfl]
      rw [List.map_cons, ← ih hnoidx₁]

/-- The last character of a join is the last character of its last
nonempty group. -/
theorem joinSepChar_getLast (sep : Char) :
    ∀ gs g, g ≠ [] → (joinSepChar sep (gs ++ [g])).getLast? = g.getLast? := by
  intro gs
  induction gs with
  | nil => intro g _; rfl
  | cons g₀ gs ih =>
    intro g hg
    have hinner := ih g hg
    have hginner : joinSepChar sep (gs ++ [g]) ≠ [] := by
      intro hnil
      rw [hnil] at hinner
      obtain ⟨c, hc⟩ := List.getLast?_isSome.mpr hg |> Option.isSome_iff_exists.mp
      rw [hc] at hinner
      cases hinner
    cases gs with
    | nil =>
      rw [show joinSepChar sep (([g₀] : List (List Char)) ++ [g]) =
        g₀ ++ sep :: joinSepChar sep [g] from rfl]
      rw [show joinSepChar sep [g] = g from rfl]
      rw [List.getLast?_append_of_ne_nil g₀ (by simp)]
      rw [show (sep :: g) = [sep] ++ g from rfl]
      rw [List.getLast?_append_of_ne_nil [sep] hg]
    | cons g₁ gs₁ =>
      rw [show joinSepChar sep ((g₀ :: g₁ :: gs₁) ++ [g]) =
        g₀ ++ sep :: joinSepChar sep ((g₁ :: gs₁) ++ [g]) from rfl]
      rw [List.getLast?_append_of_ne_nil g₀ (by simp)]
      rw [show (sep :: joinSepChar sep ((g₁ :: gs₁) ++ [g])) =
        [sep] ++ joinSepChar sep ((g₁ :: gs₁) ++ [g]) from rfl]
      rw [List.getLast?_append_of_ne_nil [sep] hginner]
      exact hinner

/-- A list ending in a non-digit has no trailing digit run. -/
theorem trailingDigits_eq_nil (cs : List Char) (c : Char)
    (h₁ : cs.getLast? = some c) (h₂ : isDig c = false) :
    trailingDigits cs = [] := by
  rw [trailingDigits]
  have hrev : cs.reverse.head? = some c := by
    rw [← List.getLast?_eq_head?_reverse]
    exact h₁
  cases hcs : cs.reverse with
  | nil => rw [hcs] at hrev; cases hrev
  | cons d t =>
    rw [hcs] at hrev
    have hd : d = c := by
      injection hrev
    subst hd
    rw [List.takeWhile_cons, h₂]
    rfl

/-- Every collected field name comes from a field token of the path. -/
theorem fieldNames_mem (toks : List Tok) (nm : List Char)
    (h : nm ∈ fieldNames toks) : Tok.field ⟨nm⟩ ∈ toks := by
  rw [fieldNames, List.mem_filterMap] at h
  obtain ⟨t, hmem, heq⟩ := h
  cases t with
  | field m =>
    have : m.data = nm := by injection heq
    subst this
    exact hmem
  | idx i g => cases heq

/-- An index-free rendered key of valid names re-parses under the
underscore grammar to exactly the same path: the key contains no `_`, so
it is a single underscore component whose trailing characters are not
digits, and its dotted sub-names are the original field names. -/
theorem parseKeyU_render_noidx (op cl : Char) (n : String) (rest : List Tok)
    (hnoidx : hasIdx (Tok.field n :: rest) = false)
    (hnames : ∀ m, Tok.field m ∈ (Tok.field n :: rest) → validName m = true) :
    parseKeyU ⟨renderKeyD op cl (Tok.field n :: rest)⟩ =
      some (Tok.field n :: rest) := by
  have hjoin := renderKeyD_noidx_join op cl rest n hnoidx
  have hgvalid : ∀ g ∈ (n.data :: fieldNames rest), validName ⟨g⟩ = true := by
    intro g hg
    rcases List.mem_cons.mp hg with h₁ | h₁
    · subst h₁
      exact hnames n (List.mem_cons_self _ _)
    · exact hnames ⟨g⟩ (List.mem_cons_of_mem _ (fieldNames_mem rest g h₁))
  have hgne : ∀ g ∈ (n.data :: fieldNames rest), g ≠ [] := by
    intro g hg
    exact (validName_chars ⟨g⟩ (hgvalid g hg)).1
  have hgdot : ∀ g ∈ (n.data :: fieldNames rest), '.' ∉ g := by
    intro g hg hdot
    exact ((validName_chars ⟨g⟩ (hgvalid g hg)).2 '.' hdot).1 rfl
  have hfree := renderKeyD_noidx_no_delims op cl (Tok.field n :: rest) hnoidx hnames
  rw [parseKeyU]
  rw [show (String.mk (renderKeyD op cl (Tok.field n :: rest))).data =
    renderKeyD op cl (Tok.field n :: rest) from rfl]
  rw [splitOnChar_of_not_mem '_' _ (fun hmem => (hfree '_' hmem).2.2.2.2 rfl)]
  obtain ⟨c, glast, hglmem₀, hgl₀, hcdig, hlast⟩ :
      ∃ c, ∃ glast ∈ (n.data :: fieldNames rest), glast.getLast? = some c ∧
        isDig c = false ∧
        (renderKeyD op cl (Tok.field n :: rest)).getLast? = some c := by
    rcases List.eq_nil_or_concat (n.data :: fieldNames rest) with hnil | ⟨L, glast, hconc⟩
    · cases hnil
    · have hglmem : glast ∈ (n.data :: fieldNames rest) := by
        rw [hconc, List.concat_eq_append]
        exact List.mem_append.mpr (Or.inr (List.mem_singleton.mpr rfl))
      have hglne : glast ≠ [] := hgne glast hglmem
      obtain ⟨c, hc⟩ := Option.isSome_iff_exists.mp (List.getLast?_isSome.mpr hglne)
      refine ⟨c, glast, hglmem, hc, ?_, ?_⟩
      · exact validName_last ⟨glast⟩ (hgvalid glast hglmem) c hc
      · rw [hjoin, hconc, List.concat_eq_append, joinSepChar_getLast '.' L glast hglne, hc]
  have hne : renderKeyD op cl (Tok.field n :: rest) ≠ [] := by
    intro hnil
    rw [hnil] at hlast
    cases hlast
  have hnall : (renderKeyD op cl (Tok.field n :: rest)).all isDig = false := by
    rcases hall : (renderKeyD op cl (Tok.field n :: rest)).all isDig with _ | _
    · rfl
    · have hcm := List.mem_of_mem_getLast? (Option.mem_def.mpr hlast)
      have := List.all_eq_true.mp hall c hcm
      rw [this] at hcdig
      cases hcdig
  rw [parseUComps]
  rw [if_neg (by
    intro hemp
    exact hne (List.isEmpty_iff.mp hemp))]
  rw [if_neg (by
    intro hall
    rw [hall] at hnall
    cases hnall)]
  dsimp only
  rw [trailingDigits_eq_nil _ c hlast hcdig]
  rw [show ([] : List Char).length = 0 from rfl, Nat.sub_zero, List.take_length]
  rw [show fieldToks (renderKeyD op cl (Tok.field n :: rest)) =
    some ((n.data :: fieldNames rest).map (fun nm => Tok.field ⟨nm⟩)) from by
    rw [fieldToks, hjoin]
    rw [splitOnChar_joinSepChar '.' _ (by simp) hgdot]
    rw [if_neg (by
      intro hany
      obtain ⟨g, hg, hgemp⟩ := List.any_eq_true.mp hany
      exact hgne g hg (List.isEmpty_iff.mp hgemp))]]
  rw [Option.map_some']
  rw [show (List.isEmpty ([] : List Char)) = true from rfl]
  rw [if_pos rfl]
  rw [show (n.data :: fieldNames rest) = fieldNames (Tok.field n :: rest) from rfl]
  rw [← noidx_toks_eq_fields _ hnoidx]

/-! ## Reconciliation no-ops -/

/-- Reconciliation keeps every token of a non-underscore entry. -/
theorem resolveGo_not_u (entries : List Entry) :
    ∀ toks pre acc, resolveGo entries false pre acc toks = acc ++ toks := by
  intro toks
  induction toks with
  | nil => intro pre acc; simp [resolveGo]
  | cons t rest ih =>
    intro pre acc
    cases t with
    | field n =>
      rw [resolveGo, ih]
      simp
    | idx i g =>
      rw [resolveGo]
      simp only [Bool.not_false, Bool.true_or, if_true]
      rw [ih]
      simp

/-- Reconciliation keeps every token of an index-free entry. -/
theorem resolveGo_noidx (entries : List Entry) (isU : Bool) :
    ∀ toks, hasIdx toks = false → ∀ pre acc,
      resolveGo entries isU pre acc toks = acc ++ toks := by
  intro toks
  induction toks with
  | nil => intro _ pre acc; simp [resolveGo]
  | cons t rest ih =>
    intro hnoidx pre acc
    cases t with
    | idx i g => simp [hasIdx] at hnoidx
    | field n =>
      have hrest : hasIdx rest = false := by
        simp [hasIdx] at hnoidx ⊢
        exact hnoidx
      rw [resolveGo, ih hrest]
      simp

/-! ## Folding steps -/

/-- A name absent from a partial map is not found. -/
theorem assocFind_of_not_mem (k : String) :
    ∀ fs : List (String × PTree), k ∉ fs.map Prod.fst → assocFind k fs = none := by
  intro fs
  induction fs with
  | nil => intro _; rfl
  | cons f fs ih =>
    intro hmem
    obtain ⟨k₀, c₀⟩ := f
    have hk : ¬(k₀ = k) := by
      intro h
      exact hmem (by rw [List.map_cons, h]; exact List.mem_cons_self _ _)
    rw [assocFind, if_neg hk]
    exact ih (fun h => hmem (List.mem_cons_of_mem _ h))

/-- Finding a freshly appended field. -/
theorem assocFind_append_last (k : String) (c : PTree) :
    ∀ fs : List (String × PTree), k ∉ fs.map Prod.fst →
      assocFind k (fs ++ [(k, c)]) = some c := by
  intro fs
  induction fs with
  | nil => intro _; simp [assocFind]
  | cons f fs ih =>
    intro hmem
    obtain ⟨k₀, c₀⟩ := f
    have hk : ¬(k₀ = k) := by
      intro h
      exact hmem (by rw [List.map_cons, h]; exact List.mem_cons_self _ _)
    rw [List.cons_append, assocFind, if_neg hk]
    exact ih (fun h => hmem (List.mem_cons_of_mem _ h))

/-- Replacing a freshly appended field. -/
theorem assocSet_append_last (k : String) (c x : PTree) :
    ∀ fs : List (String × PTree), k ∉ fs.map Prod.fst →
      assocSet k x (fs ++ [(k, c)]) = fs ++ [(k, x)] := by
  intro fs
  induction fs with
  | nil => intro _; simp [assocSet]
  | cons f fs ih =>
    intro hmem
    obtain ⟨k₀, c₀⟩ := f
    have hk : ¬(k₀ = k) := by
      intro h
      exact hmem (by rw [List.map_cons, h]; exact List.mem_cons_self _ _)
    rw [List.cons_append, assocSet, if_neg hk, ih (fun h => hmem (List.mem_cons_of_mem _ h))]
    rfl

/-- Padding a full slot list is the identity. -/
theorem padTo_of_length (xs : List (Option PTree)) (len : Nat) (h : xs.length = len) :
    padTo len xs = xs := by
  rw [padTo, h, Nat.sub_self]
  simp

/-- Padding one slot past the end appends one placeholder. -/
theorem padTo_succ (xs : List (Option PTree)) : padTo (xs.length + 1) xs = xs ++ [none] := by
  rw [padTo]
  have : xs.length + 1 - xs.length = 1 := by omega
  rw [this]
  rfl

/-- Reading the freshly appended slot. -/
theorem getD_append_last (xs : List (Option PTree)) (a : Option PTree) :
    (xs ++ [a]).getD xs.length none = a := by
  rw [List.getD_eq_getElem?_getD, List.getElem?_append_right (le_refl _)]
  simp

/-- Writing the freshly appended slot. -/
theorem set_append_last (xs : List (Option PTree)) (a b : Option PTree) :
    (xs ++ [a]).set xs.length b = xs ++ [b] := by
  simp [List.set_append]

/-- Inserting a fresh field at the end of a partial map. -/
theorem insertP_fresh_field (done : List (String × PTree)) (k : String)
    (q : List Tok) (s : String) (hk : k ∉ done.map Prod.fst) :
    insertP (.pmap done) (Tok.field k :: q) s =
      .ok (.pmap (done ++ [(k, buildFresh q s)])) := by
  rw [show insertP (.pmap done) (Tok.field k :: q) s =
    (match assocFind k done with
     | some c => (insertP c q s).map (fun c₁ => PTree.pmap (assocSet k c₁ done))
     | none => .ok (.pmap (done ++ [(k, buildFresh q s)]))) from rfl]
  rw [assocFind_of_not_mem k done hk]

/-- Inserting a fresh next element at the end of a partial sequence. -/
theorem insertP_fresh_idx (done : List (Option PTree)) (g : Bool)
    (q : List Tok) (s : String) :
    insertP (.pseq done) (Tok.idx done.length g :: q) s =
      .ok (.pseq (done ++ [some (buildFresh q s)])) := by
  rw [show insertP (.pseq done) (Tok.idx done.length g :: q) s =
    (match (padTo (done.length + 1) done).getD done.length none with
     | some c => (insertP c q s).map
         (fun c₁ => PTree.pseq ((padTo (done.length + 1) done).set done.length (some c₁)))
     | none => .ok (.pseq ((padTo (done.length + 1) done).set done.length
         (some (buildFresh q s))))) from rfl]
  rw [padTo_succ, getD_append_last, set_append_last]

/-- Descending into the freshly appended field of a partial map. -/
theorem insertP_descend_field (done : List (String × PTree)) (k : String) (c : PTree)
    (q : List Tok) (s : String) (hk : k ∉ done.map Prod.fst) :
    insertP (.pmap (done ++ [(k, c)])) (Tok.field k :: q) s =
      (insertP c q s).map (fun c₁ => .pmap (done ++ [(k, c₁)])) := by
  rw [show insertP (.pmap (done ++ [(k, c)])) (Tok.field k :: q) s =
    (match assocFind k (done ++ [(k, c)]) with
     | some c₀ => (insertP c₀ q s).map
         (fun c₁ => PTree.pmap (assocSet k c₁ (done ++ [(k, c)])))
     | none => .ok (.pmap ((done ++ [(k, c)]) ++ [(k, buildFresh q s)]))) from rfl]
  rw [assocFind_append_last k c done hk]
  have hfun : (fun c₁ => PTree.pmap (assocSet k c₁ (done ++ [(k, c)]))) =
      (fun c₁ => PTree.pmap (done ++ [(k, c₁)])) := by
    funext c₁
    rw [assocSet_append_last k c c₁ done hk]
  rw [hfun]

/-- Descending into the freshly appended slot of a partial sequence. -/
theorem insertP_descend_idx (done : List (Option PTree)) (c : PTree) (g : Bool)
    (q : List Tok) (s : String) :
    insertP (.pseq (done ++ [some c])) (Tok.idx done.length g :: q) s =
      (insertP c q s).map (fun c₁ => .pseq (done ++ [some c₁])) := by
  rw [show insertP (.pseq (done ++ [some c])) (Tok.idx done.length g :: q) s =
    (match (padTo (done.length + 1) (done ++ [some c])).getD done.length none with
     | some c₀ => (insertP c₀ q s).map
         (fun c₁ => PTree.pseq ((padTo (done.length + 1) (done ++ [some c])).set
           done.length (some c₁)))
     | none => .ok (.pseq ((padTo (done.length + 1) (done ++ [some c])).set done.length
         (some (buildFresh q s))))) from rfl]
  rw [padTo_of_length (done ++ [some c]) (done.length + 1) (by simp)]
  rw [getD_append_last]
  have hfun : (fun c₁ => PTree.pseq ((done ++ [some c]).set done.length (some c₁))) =
      (fun c₁ => PTree.pseq (done ++ [some c₁])) := by
    funext c₁
    rw [set_append_last]
  rw [hfun]

/-- Folding a batch of paths prefixed by the freshly appended field of a
partial map mirrors folding the un-prefixed batch into that field's
subtree. -/
theorem foldIns_descend_map (k : String) :
    ∀ (r : List (List Tok × String)) (done : List (String × PTree)) (c c' : PTree),
      k ∉ done.map Prod.fst → foldIns r c = .ok c' →
      foldIns (r.map (fun ps => (Tok.field k :: ps.1, ps.2))) (.pmap (done ++ [(k, c)])) =
        .ok (.pmap (done ++ [(k, c')])) := by
  intro r
  induction r with
  | nil =>
    intro done c c' hk hfold
    rw [foldIns, List.foldlM_nil] at hfold
    have hc : c = c' := by
      simp only [pure, Except.pure, Except.ok.injEq] at hfold
      exact hfold
    subst hc
    rfl
  | cons p r ih =>
    intro done c c' hk hfold
    obtain ⟨q, s⟩ := p
    rw [foldIns, List.foldlM_cons] at hfold
    cases hins : insertP c q s with
    | error e =>
      rw [hins] at hfold
      simp [Bind.bind, Except.bind] at hfold
    | ok c₁ =>
      rw [hins] at hfold
      simp only [Bind.bind, Except.bind] at hfold
      rw [List.map_cons, foldIns, List.foldlM_cons]
      rw [insertP_descend_field done k c q s hk, hins]
      rw [show (Except.ok c₁).map (fun c₁ => PTree.pmap (done ++ [(k, c₁)])) =
        Except.ok (PTree.pmap (done ++ [(k, c₁)])) from rfl]
      rw [show ((Except.ok (PTree.pmap (done ++ [(k, c₁)])) :
          Except DecErr PTree) >>= fun init =>
          List.foldlM (fun t pv => insertP t pv.1 pv.2) init
            (r.map (fun ps => (Tok.field k :: ps.1, ps.2)))) =
        List.foldlM (fun t pv => insertP t pv.1 pv.2) (PTree.pmap (done ++ [(k, c₁)]))
          (r.map (fun ps => (Tok.field k :: ps.1, ps.2))) from rfl]
      exact ih done c₁ c' hk hfold

/-- Folding a batch of paths prefixed by the freshly appended index of a
partial sequence mirrors folding the un-prefixed batch into that slot's
subtree. -/
theorem foldIns_descend_seq :
    ∀ (r : List (List Tok × String)) (done : List (Option PTree)) (c c' : PTree),
      foldIns r c = .ok c' →
      foldIns (r.map (fun ps => (Tok.idx done.length false :: ps.1, ps.2)))
          (.pseq (done ++ [some c])) = .ok (.pseq (done ++ [some c'])) := by
  intro r
  induction r with
  | nil =>
    intro done c c' hfold
    rw [foldIns, List.foldlM_nil] at hfold
    have hc : c = c' := by
      simp only [pure, Except.pure, Except.ok.injEq] at hfold
      exact hfold
    subst hc
    rfl
  | cons p r ih =>
    intro done c c' hfold
    obtain ⟨q, s⟩ := p
    rw [foldIns, List.foldlM_cons] at hfold
    cases hins : insertP c q s with
    | error e =>
      rw [hins] at hfold
      simp [Bind.bind, Except.bind] at hfold
    | ok c₁ =>
      rw [hins] at hfold
      simp only [Bind.bind, Except.bind] at hfold
      rw [List.map_cons, foldIns, List.foldlM_cons]
      rw [insertP_descend_idx done c false q s, hins]
      rw [show (Except.ok c₁).map (fun c₁ => PTree.pseq (done ++ [some c₁])) =
        Except.ok (PTree.pseq (done ++ [some c₁])) from rfl]
      rw [show ((Except.ok (PTree.pseq (done ++ [some c₁])) :
          Except DecErr PTree) >>= fun init =>
          List.foldlM (fun t pv => insertP t pv.1 pv.2) init
            (r.map (fun ps => (Tok.idx done.length false :: ps.1, ps.2)))) =
        List.foldlM (fun t pv => insertP t pv.1 pv.2) (PTree.pseq (done ++ [some c₁]))
          (r.map (fun ps => (Tok.idx done.length false :: ps.1, ps.2))) from rfl]
      exact ih done c₁ c' hfold

/-! ## Flattened pairs of a valid value are nonempty -/

mutual
/-- A valid value flattens to at least one pair. -/
theorem flattenPaths_ne_nil : (v : Value) → validV v = true → flattenPaths v ≠ []
  | .scalar _, _ => by simp [flattenPaths]
  | .seq xs, h => by
    rw [flattenPaths]
    rw [validV, Bool.and_eq_true] at h
    cases xs with
    | nil => simp at h
    | cons x xs₁ => exact flattenSeq_ne_nil x xs₁ 0 h.2
  | .map fs, h => by
    rw [flattenPaths]
    rw [validV, Bool.and_eq_true] at h
    cases fs with
    | nil => simp at h
    | cons f fs₁ => exact flattenMap_ne_nil f fs₁ h.2

/-- A nonempty valid sequence flattens to at least one pair. -/
theorem flattenSeq_ne_nil : (x : Value) → (xs : List Value) → (i : Nat) →
    validL (x :: xs) = true → flattenSeq i (x :: xs) ≠ []
  | x, xs, i, h => by
    rw [validL, Bool.and_eq_true] at h
    rw [flattenSeq]
    intro hnil
    rcases List.append_eq_nil.mp hnil with ⟨h₁, _⟩
    exact flattenPaths_ne_nil x h.1 (List.map_eq_nil_iff.mp h₁)

/-- A nonempty valid mapping flattens to at least one pair. -/
theorem flattenMap_ne_nil : (f : String × Value) → (fs : List (String × Value)) →
    validM (f :: fs) = true → flattenMap (f :: fs) ≠ []
  | (k, x), fs, h => by
    rw [validM] at h
    simp only [Bool.and_eq_true] at h
    rw [flattenMap]
    intro hnil
    rcases List.append_eq_nil.mp hnil with ⟨h₁, _⟩
    exact flattenPaths_ne_nil x h.1.2 (List.map_eq_nil_iff.mp h₁)
end

/-! ## Folding the flattened pairs of a valid value -/

mutual
/-- Folding the tail of a valid value's flattened pairs into the fresh
tree of the first pair rebuilds the value's completed partial tree. -/
theorem foldIns_core : (v : Value) → validV v = true →
    ∀ q t r, flattenPaths v = (q, t) :: r → foldIns r (buildFresh q t) = .ok (toP v)
  | .scalar s, _, q, t, r, heq => by
    rw [flattenPaths, List.cons.injEq, Prod.mk.injEq] at heq
    obtain ⟨⟨hq, ht⟩, hr⟩ := heq
    subst hq
    subst ht
    subst hr
    rfl
  | .seq xs, h, q, t, r, heq => by
    rw [validV, Bool.and_eq_true] at h
    cases xs with
    | nil => simp at h
    | cons x xs₁ =>
      have hL := h.2
      rw [validL, Bool.and_eq_true] at hL
      cases hfp : flattenPaths x with
      | nil => exact absurd hfp (flattenPaths_ne_nil x hL.1)
      | cons p₀ r₀ =>
        obtain ⟨q₀, t₀⟩ := p₀
        rw [flattenPaths, flattenSeq, hfp, List.map_cons, List.cons_append,
          List.cons.injEq, Prod.mk.injEq] at heq
        obtain ⟨⟨hq, ht⟩, hr⟩ := heq
        subst hq
        subst ht
        subst hr
        have hcore := foldIns_core x hL.1 q₀ t₀ r₀ hfp
        have hdesc₂ : List.foldlM (fun t pv => insertP t pv.1 pv.2)
            (PTree.pseq [some (buildFresh q₀ t₀)])
            (r₀.map (fun ps => (Tok.idx 0 false :: ps.1, ps.2))) =
          .ok (.pseq [some (toP x)]) :=
          foldIns_descend_seq r₀ [] (buildFresh q₀ t₀) (toP x) hcore
        have hrest₂ : List.foldlM (fun t pv => insertP t pv.1 pv.2)
            (PTree.pseq [some (toP x)]) (flattenSeq 1 xs₁) =
          .ok (.pseq ([some (toP x)] ++ toPL xs₁)) :=
          foldIns_seq xs₁ hL.2 1 [some (toP x)] rfl
        rw [show buildFresh (Tok.idx 0 false :: q₀) t₀ =
          PTree.pseq [some (buildFresh q₀ t₀)] from rfl]
        rw [foldIns, List.foldlM_append, hdesc₂]
        rw [show ((Except.ok (PTree.pseq [some (toP x)]) : Except DecErr PTree) >>=
            fun init => List.foldlM (fun t pv => insertP t pv.1 pv.2) init
              (flattenSeq 1 xs₁)) =
          List.foldlM (fun t pv => insertP t pv.1 pv.2) (PTree.pseq [some (toP x)])
            (flattenSeq 1 xs₁) from rfl]
        rw [hrest₂]
        rfl
  | .map fs, h, q, t, r, heq => by
    rw [validV, Bool.and_eq_true] at h
    cases fs with
    | nil => simp at h
    | cons f fs₁ =>
      obtain ⟨k, x⟩ := f
      have hM := h.2
      rw [validM] at hM
      simp only [Bool.and_eq_true] at hM
      cases hfp : flattenPaths x with
      | nil => exact absurd hfp (flattenPaths_ne_nil x hM.1.2)
      | cons p₀ r₀ =>
        obtain ⟨q₀, t₀⟩ := p₀
        rw [flattenPaths, flattenMap, hfp, List.map_cons, List.cons_append,
          List.cons.injEq, Prod.mk.injEq] at heq
        obtain ⟨⟨hq, ht⟩, hr⟩ := heq
        subst hq
        subst ht
        subst hr
        have hknotin : k ∉ fs₁.map Prod.fst := by simpa using hM.1.1.2
        have hcore := foldIns_core x hM.1.2 q₀ t₀ r₀ hfp
        have hdesc₂ : List.foldlM (fun t pv => insertP t pv.1 pv.2)
            (PTree.pmap [(k, buildFresh q₀ t₀)])
            (r₀.map (fun ps => (Tok.field k :: ps.1, ps.2))) =
          .ok (.pmap [(k, toP x)]) :=
          foldIns_descend_map k r₀ [] (buildFresh q₀ t₀) (toP x) (by simp) hcore
        have hrest₂ : List.foldlM (fun t pv => insertP t pv.1 pv.2)
            (PTree.pmap [(k, toP x)]) (flattenMap fs₁) =
          .ok (.pmap ([(k, toP x)] ++ toPM fs₁)) := by
          refine foldIns_map fs₁ hM.2 [(k, toP x)] ?_
          intro k₁ hk₁ hmem
          simp at hmem
          subst hmem
          exact hknotin hk₁
        rw [show buildFresh (Tok.field k :: q₀) t₀ =
          PTree.pmap [(k, buildFresh q₀ t₀)] from rfl]
        rw [foldIns, List.foldlM_append, hdesc₂]
        rw [show ((Except.ok (PTree.pmap [(k, toP x)]) : Except DecErr PTree) >>=
            fun init => List.foldlM (fun t pv => insertP t pv.1 pv.2) init
              (flattenMap fs₁)) =
          List.foldlM (fun t pv => insertP t pv.1 pv.2) (PTree.pmap [(k, toP x)])
            (flattenMap fs₁) from rfl]
        rw [hrest₂]
        rfl

/-- Folding the flattened pairs of valid sequence elements onto a partial
sequence of completed slots appends their completed subtrees. -/
theorem foldIns_seq : (xs : List Value) → validL xs = true →
    ∀ i done, done.length = i →
      foldIns (flattenSeq i xs) (.pseq done) = .ok (.pseq (done ++ toPL xs))
  | [], _, i, done, _ => by
    rw [flattenSeq]
    rw [show toPL [] = [] from rfl, List.append_nil]
    rfl
  | x :: xs₁, h, i, done, hlen => by
    rw [validL, Bool.and_eq_true] at h
    subst hlen
    cases hfp : flattenPaths x with
    | nil => exact absurd hfp (flattenPaths_ne_nil x h.1)
    | cons p₀ r₀ =>
      obtain ⟨q₀, t₀⟩ := p₀
      rw [flattenSeq, hfp, List.map_cons]
      rw [foldIns, List.cons_append, List.foldlM_cons]
      rw [insertP_fresh_idx done false q₀ t₀]
      rw [show ((Except.ok (PTree.pseq (done ++ [some (buildFresh q₀ t₀)])) :
          Except DecErr PTree) >>= fun init =>
          List.foldlM (fun t pv => insertP t pv.1 pv.2) init
            (r₀.map (fun ps => (Tok.idx done.length false :: ps.1, ps.2)) ++
              flattenSeq (done.length + 1) xs₁)) =
        List.foldlM (fun t pv => insertP t pv.1 pv.2)
          (PTree.pseq (done ++ [some (buildFresh q₀ t₀)]))
          (r₀.map (fun ps => (Tok.idx done.length false :: ps.1, ps.2)) ++
            flattenSeq (done.length + 1) xs₁) from rfl]
      rw [List.foldlM_append]
      have hcore := foldIns_core x h.1 q₀ t₀ r₀ hfp
      have hdesc₂ : List.foldlM (fun t pv => insertP t pv.1 pv.2)
          (PTree.pseq (done ++ [some (buildFresh q₀ t₀)]))
          (r₀.map (fun ps => (Tok.idx done.length false :: ps.1, ps.2))) =
        .ok (.pseq (done ++ [some (toP x)])) :=
        foldIns_descend_seq r₀ done (buildFresh q₀ t₀) (toP x) hcore
      rw [hdesc₂]
      have hrest₂ : List.foldlM (fun t pv => insertP t pv.1 pv.2)
          (PTree.pseq (done ++ [some (toP x)])) (flattenSeq (done.length + 1) xs₁) =
        .ok (.pseq ((done ++ [some (toP x)]) ++ toPL xs₁)) :=
        foldIns_seq xs₁ h.2 (done.length + 1) (done ++ [some (toP x)]) (by simp)
      rw [show ((Except.ok (PTree.pseq (done ++ [some (toP x)])) :
          Except DecErr PTree) >>= fun init =>
          List.foldlM (fun t pv => insertP t pv.1 pv.2) init
            (flattenSeq (done.length + 1) xs₁)) =
        List.foldlM (fun t pv => insertP t pv.1 pv.2)
          (PTree.pseq (done ++ [some (toP x)]))
          (flattenSeq (done.length + 1) xs₁) from rfl]
      rw [hrest₂]
      rw [List.append_assoc]
      rfl

/-- Folding the flattened pairs of valid mapping fields onto a partial map
with disjoint completed fields appends their completed subtrees. -/
theorem foldIns_map : (fs : List (String × Value)) → validM fs = true →
    ∀ done, (∀ k ∈ fs.map Prod.fst, k ∉ done.map Prod.fst) →
      foldIns (flattenMap fs) (.pmap done) = .ok (.pmap (done ++ toPM fs))
  | [], _, done, _ => by
    rw [flattenMap]
    rw [show toPM [] = [] from rfl, List.append_nil]
    rfl
  | (k, x) :: fs₁, h, done, hdisj => by
    rw [validM] at h
    simp only [Bool.and_eq_true] at h
    have hknew : k ∉ done.map Prod.fst :=
      hdisj k (by rw [List.map_cons]; exact List.mem_cons_self _ _)
    cases hfp : flattenPaths x with
    | nil => exact absurd hfp (flattenPaths_ne_nil x h.1.2)
    | cons p₀ r₀ =>
      obtain ⟨q₀, t₀⟩ := p₀
      rw [flattenMap, hfp, List.map_cons]
      rw [foldIns, List.cons_append, List.foldlM_cons]
      rw [insertP_fresh_field done k q₀ t₀ hknew]
      rw [show ((Except.ok (PTree.pmap (done ++ [(k, buildFresh q₀ t₀)])) :
          Except DecErr PTree) >>= fun init =>
          List.foldlM (fun t pv => insertP t pv.1 pv.2) init
            (r₀.map (fun ps => (Tok.field k :: ps.1, ps.2)) ++ flattenMap fs₁)) =
        List.foldlM (fun t pv => insertP t pv.1 pv.2)
          (PTree.pmap (done ++ [(k, buildFresh q₀ t₀)]))
          (r₀.map (fun ps => (Tok.field k :: ps.1, ps.2)) ++ flattenMap fs₁) from rfl]
      rw [List.foldlM_append]
      have hcore := foldIns_core x h.1.2 q₀ t₀ r₀ hfp
      have hdesc₂ : List.foldlM (fun t pv => insertP t pv.1 pv.2)
          (PTree.pmap (done ++ [(k, buildFresh q₀ t₀)]))
          (r₀.map (fun ps => (Tok.field k :: ps.1, ps.2))) =
        .ok (.pmap (done ++ [(k, toP x)])) :=
        foldIns_descend_map k r₀ done (buildFresh q₀ t₀) (toP x) hknew hcore
      rw [hdesc₂]
      have hrest₂ : List.foldlM (fun t pv => insertP t pv.1 pv.2)
          (PTree.pmap (done ++ [(k, toP x)])) (flattenMap fs₁) =
        .ok (.pmap ((done ++ [(k, toP x)]) ++ toPM fs₁)) := by
        refine foldIns_map fs₁ h.2 (done ++ [(k, toP x)]) ?_
        intro k₁ hk₁ hmem
        rw [List.map_append, List.mem_append] at hmem
        rcases hmem with hmem | hmem
        · exact hdisj k₁ (by rw [List.map_cons]; exact List.mem_cons_of_mem _ hk₁) hmem
        · simp at hmem
          exact (by simpa using h.1.1.2 : k ∉ fs₁.map Prod.fst) (hmem ▸ hk₁)
      rw [show ((Except.ok (PTree.pmap (done ++ [(k, toP x)])) :
          Except DecErr PTree) >>= fun init =>
          List.foldlM (fun t pv => insertP t pv.1 pv.2) init (flattenMap fs₁)) =
        List.foldlM (fun t pv => insertP t pv.1 pv.2)
          (PTree.pmap (done ++ [(k, toP x)])) (flattenMap fs₁) from rfl]
      rw [hrest₂]
      rw [List.append_assoc]
      rfl
end

/-! ## Well-formedness of flattened paths -/

mutual
/-- Paths of a valid value carry valid field names and clear index flags. -/
theorem flattenPaths_wf : (v : Value) → validV v = true →
    ∀ p ∈ flattenPaths v,
      (∀ m, Tok.field m ∈ p.1 → validName m = true) ∧
        (∀ i g, Tok.idx i g ∈ p.1 → g = false)
  | .scalar s, _, p, hp => by
    rw [flattenPaths] at hp
    simp at hp
    subst hp
    exact ⟨fun m hm => absurd hm (List.not_mem_nil _),
      fun i g hm => absurd hm (List.not_mem_nil _)⟩
  | .seq xs, h, p, hp => by
    rw [flattenPaths] at hp
    rw [validV, Bool.and_eq_true] at h
    exact flattenSeq_wf xs h.2 0 p hp
  | .map fs, h, p, hp => by
    rw [flattenPaths] at hp
    rw [validV, Bool.and_eq_true] at h
    exact flattenMap_wf fs h.2 p hp

/-- Paths of valid sequence elements carry valid field names and clear
index flags. -/
theorem flattenSeq_wf : (xs : List Value) → validL xs = true → (i : Nat) →
    ∀ p ∈ flattenSeq i xs,
      (∀ m, Tok.field m ∈ p.1 → validName m = true) ∧
        (∀ i₁ g, Tok.idx i₁ g ∈ p.1 → g = false)
  | [], _, i, p, hp => by rw [flattenSeq] at hp; cases hp
  | x :: xs₁, h, i, p, hp => by
    rw [validL, Bool.and_eq_true] at h
    rw [flattenSeq, List.mem_append] at hp
    rcases hp with hp | hp
    · rw [List.mem_map] at hp
      obtain ⟨p₀, hp₀, hpe⟩ := hp
      have hw := flattenPaths_wf x h.1 p₀ hp₀
      subst hpe
      constructor
      · intro m hm
        rcases List.mem_cons.mp hm with h₁ | h₁
        · cases h₁
        · exact hw.1 m h₁
      · intro i₁ g hm
        rcases List.mem_cons.mp hm with h₁ | h₁
        · injection h₁ with h₂ h₃
        · exact hw.2 i₁ g h₁
    · exact flattenSeq_wf xs₁ h.2 (i + 1) p hp

/-- Paths of valid mapping fields carry valid field names and clear index
flags. -/
theorem flattenMap_wf : (fs : List (String × Value)) → validM fs = true →
    ∀ p ∈ flattenMap fs,
      (∀ m, Tok.field m ∈ p.1 → validName m = true) ∧
        (∀ i₁ g, Tok.idx i₁ g ∈ p.1 → g = false)
  | [], _, p, hp => by rw [flattenMap] at hp; cases hp
  | (k, x) :: fs₁, h, p, hp => by
    rw [validM] at h
    simp only [Bool.and_eq_true] at h
    rw [flattenMap, List.mem_append] at hp
    rcases hp with hp | hp
    · rw [List.mem_map] at hp
      obtain ⟨p₀, hp₀, hpe⟩ := hp
      have hw := flattenPaths_wf x h.1.2 p₀ hp₀
      subst hpe
      constructor
      · intro m hm
        rcases List.mem_cons.mp hm with h₁ | h₁
        · injection h₁ with h₂
          subst h₂
          exact h.1.1.1
        · exact hw.1 m h₁
      · intro i₁ g hm
        rcases List.mem_cons.mp hm with h₁ | h₁
        · cases h₁
        · exact hw.2 i₁ g h₁
    · exact flattenMap_wf fs₁ h.2 p hp
end

/-- Every flattened path of a mapping starts with a field token. -/
theorem flattenMap_head :
    ∀ (fs : List (String × Value)), ∀ p ∈ flattenMap fs,
      ∃ k rest, p.1 = Tok.field k :: rest := by
  intro fs
  induction fs with
  | nil => intro p hp; rw [flattenMap] at hp; cases hp
  | cons f fs₁ ih =>
    obtain ⟨k, x⟩ := f
    intro p hp
    rw [flattenMap, List.mem_append] at hp
    rcases hp with hp | hp
    · rw [List.mem_map] at hp
      obtain ⟨p₀, hp₀, hpe⟩ := hp
      subst hpe
      exact ⟨k, p₀.1, rfl⟩
    · exact ih p hp

/-! ## Finalizing a completed partial tree -/

mutual
/-- The completed partial tree of a value finalizes back to the value. -/
theorem finalize_toP : (v : Value) → finalize (toP v) = .ok v
  | .scalar s => rfl
  | .seq xs => by
    rw [show toP (.seq xs) = .pseq (toPL xs) from rfl, finalize, finalizeSeq_toPL xs]
    rfl
  | .map fs => by
    rw [show toP (.map fs) = .pmap (toPM fs) from rfl, finalize, finalizeMap_toPM fs]
    rfl

/-- Completed sequence slots finalize back to the elements. -/
theorem finalizeSeq_toPL : (xs : List Value) → finalizeSeq (toPL xs) = .ok xs
  | [] => rfl
  | x :: xs₁ => by
    rw [show toPL (x :: xs₁) = some (toP x) :: toPL xs₁ from rfl, finalizeSeq,
      finalize_toP x, finalizeSeq_toPL xs₁]

/-- Completed map fields finalize back to the fields. -/
theorem finalizeMap_toPM : (fs : List (String × Value)) → finalizeMap (toPM fs) = .ok fs
  | [] => rfl
  | (k, x) :: fs₁ => by
    rw [show toPM ((k, x) :: fs₁) = (k, toP x) :: toPM fs₁ from rfl, finalizeMap,
      finalize_toP x, finalizeMap_toPM fs₁]
end

/-! ## Finalization lemmas -/

mutual
/-- Finalization can only fail as a sparse sequence. -/
theorem finalize_err_kind : (t : PTree) → (e : DecErr) → finalize t = .error e →
    e = .sparseSequence
  | .leaf s, e, h => by simp [finalize] at h
  | .pseq xs, e, h => by
    cases hs : finalizeSeq xs with
    | ok vs => rw [finalize, hs] at h; simp [Except.map] at h
    | error e₁ =>
      rw [finalize, hs] at h
      simp [Except.map] at h
      exact h ▸ finalizeSeq_err_kind xs e₁ hs
  | .pmap fs, e, h => by
    cases hs : finalizeMap fs with
    | ok vs => rw [finalize, hs] at h; simp [Except.map] at h
    | error e₁ =>
      rw [finalize, hs] at h
      simp [Except.map] at h
      exact h ▸ finalizeMap_err_kind fs e₁ hs

/-- Sequence-slot finalization can only fail as a sparse sequence. -/
theorem finalizeSeq_err_kind : (xs : List (Option PTree)) → (e : DecErr) →
    finalizeSeq xs = .error e → e = .sparseSequence
  | [], e, h => by simp [finalizeSeq] at h
  | none :: xs, e, h => by
    rw [finalizeSeq] at h
    exact (Except.error.inj h).symm
  | some c :: xs, e, h => by
    rw [finalizeSeq] at h
    cases hc : finalize c with
    | error e₁ =>
      rw [hc] at h; simp at h
      exact h ▸ finalize_err_kind c e₁ hc
    | ok v =>
      rw [hc] at h; simp at h
      cases hxs : finalizeSeq xs with
      | error e₂ =>
        rw [hxs] at h; simp at h
        exact h ▸ finalizeSeq_err_kind xs e₂ hxs
      | ok vs => rw [hxs] at h; simp at h

/-- Map-field finalization can only fail as a sparse sequence. -/
theorem finalizeMap_err_kind : (fs : List (String × PTree)) → (e : DecErr) →
    finalizeMap fs = .error e → e = .sparseSequence
  | [], e, h => by simp [finalizeMap] at h
  | (k, c) :: fs, e, h => by
    rw [finalizeMap] at h
    cases hc : finalize c with
    | error e₁ =>
      rw [hc] at h; simp at h
      exact h ▸ finalize_err_kind c e₁ hc
    | ok v =>
      rw [hc] at h; simp at h
      cases hfs : finalizeMap fs with
      | error e₂ =>
        rw [hfs] at h; simp at h
        exact h ▸ finalizeMap_err_kind fs e₂ hfs
      | ok vs => rw [hfs] at h; simp at h
end

mutual
/-- A partial tree with an unfilled sequence slot finalizes to the sparse
sequence error. -/
theorem finalize_gap : (t : PTree) → hasGapP t = true →
    finalize t = .error .sparseSequence
  | .leaf s, h => by simp [hasGapP] at h
  | .pseq xs, h => by
    rw [hasGapP] at h
    rw [finalize, finalizeSeq_gap xs h]
    rfl
  | .pmap fs, h => by
    rw [hasGapP] at h
    rw [finalize, finalizeMap_gap fs h]
    rfl

/-- Sequence slots with a gap finalize to the sparse sequence error. -/
theorem finalizeSeq_gap : (xs : List (Option PTree)) → hasGapS xs = true →
    finalizeSeq xs = .error .sparseSequence
  | [], h => by simp [hasGapS] at h
  | none :: xs, _ => by rw [finalizeSeq]
  | some c :: xs, h => by
    rw [hasGapS, Bool.or_eq_true] at h
    rw [finalizeSeq]
    rcases h with h | h
    · rw [finalize_gap c h]
    · cases hc : finalize c with
      | error e₁ =>
        have he := finalize_err_kind c e₁ hc
        subst he
        rfl
      | ok v =>
        rw [finalizeSeq_gap xs h]

/-- Map fields with a gap beneath them finalize to the sparse sequence
error. -/
theorem finalizeMap_gap : (fs : List (String × PTree)) → hasGapM fs = true →
    finalizeMap fs = .error .sparseSequence
  | [], h => by simp [hasGapM] at h
  | (k, c) :: fs, h => by
    rw [hasGapM, Bool.or_eq_true] at h
    rw [finalizeMap]
    rcases h with h | h
    · rw [finalize_gap c h]
    · cases hc : finalize c with
      | error e₁ =>
        have he := finalize_err_kind c e₁ hc
        subst he
        rfl
      | ok v =>
        rw [finalizeMap_gap fs h]
end

/-! ## Claim theorems: concrete decode behavior -/

/-- C2: decoding the single pair `l_not-a-list_1_bar = evil`, with no
sibling pair establishing `not-a-list` as a sequence, yields the nested
mapping with literal digit-suffixed field `not-a-list_1` rather than list
index 1 of `not-a-list`. -/
theorem c2_ambiguity_fallback :
    get_hierarchical_dict [("l_not-a-list_1_bar", "evil")] =
      .ok (.map [("l", .map [("not-a-list_1", .map [("bar", .scalar "evil")])])]) := rfl

/-- C3: decoding the four pairs `l_foo_0_bar0=1`, `l_foo_0_bar1=2`,
`l_foo_0_bar33=haha`, `l_foo_33_bar0=muhaha` yields a two-element list
`bar` under `foo[0]`, while `bar33` and `foo_33` resolve to literal
digit-suffixed mapping fields. -/
theorem c3_mixed_list_example :
    get_hierarchical_dict
      [("l_foo_0_bar0", "1"), ("l_foo_0_bar1", "2"),
       ("l_foo_0_bar33", "haha"), ("l_foo_33_bar0", "muhaha")] =
      .ok (.map [("l", .map
        [("foo", .seq [.map [("bar", .seq [.scalar "1", .scalar "2"]),
                             ("bar33", .scalar "haha")]]),
         ("foo_33", .map [("bar", .seq [.scalar "muhaha"])])])]) := rfl

/-- C5 counterexample: the claim asserts that every non-string input is
returned unchanged, but `None` is a non-string input and decoding it
yields the empty mapping, which is not `None`. -/
theorem c5_counterexample :
    loads .pynone false false true none none = .ok (.val (.map [])) ∧
      (Except.ok (LoadResult.val (Value.map [])) : Except DecErr LoadResult) ≠
        .ok (.raw .pynone) := by
  refine ⟨rfl, ?_⟩
  intro h
  cases Except.ok.inj h

/-- C5 amended: every falsy input (empty or absent, but also falsy
non-strings such as 0) decodes to the empty mapping, and every truthy
non-string input is returned unchanged as a pass-through. -/
theorem c5_empty_and_passthrough (x : PyIn) (kb sp gh : Bool)
    (kf vf : Option (String → String)) :
    (pyTruthy x = false → loads x kb sp gh kf vf = .ok (.val (.map []))) ∧
      (pyTruthy x = true → is_string x = false →
        loads x kb sp gh kf vf = .ok (.raw x)) := by
  constructor
  · intro h
    simp [loads, h]
  · intro h hs
    cases x with
    | pystr s => simp [is_string] at hs
    | pynone => simp [pyTruthy] at h
    | pyint n => simp [loads, h]
    | pylist xs => simp [loads, h]

/-- C5 witness: the amended behavior at the concrete inputs `None`
(falsy) and the integer 1 (truthy non-string). -/
theorem c5_witness :
    loads .pynone false false true none none = .ok (.val (.map [])) ∧
      loads (.pyint 1) false false true none none = .ok (.raw (.pyint 1)) :=
  ⟨(c5_empty_and_passthrough .pynone false false true none none).1 rfl,
   (c5_empty_and_passthrough (.pyint 1) false false true none none).2 (by decide) rfl⟩

/-- C6: flattening fails with `InvalidRoot` whenever the top-level input
is not a mapping; a bare sequence or scalar root is rejected rather than
producing pairs. -/
theorem c6_invalid_root (v : Value) (conv : Convention) (h : is_dict v = false) :
    get_hierarchical_pairs v conv = .error .invalidRoot := by
  cases v with
  | scalar s => rfl
  | seq xs => rfl
  | map fs => simp [is_dict] at h

/-- C6 witness: the empty list root, the concrete input used by
`test_get_hierarchical_pairs`. -/
theorem c6_witness :
    is_dict (.seq []) = false ∧
      get_hierarchical_pairs (.seq []) .bracket = .error .invalidRoot :=
  ⟨rfl, c6_invalid_root (.seq []) .bracket rfl⟩

/-- C7: decoding the pairs `a[0] = x`, `a[2] = y` fails with
`SparseSequence`, and in general, whenever folding a batch of pairs
succeeds but leaves some sequence slot unfilled (a non-contiguous index
set), decoding fails with `SparseSequence`. -/
theorem c7_sparse_sequence :
    get_hierarchical_dict [("a[0]", "x"), ("a[2]", "y")] = .error .sparseSequence ∧
      ∀ (pairs : List (String × String)) (t : PTree),
        foldStage pairs = .ok t → hasGapP t = true →
        get_hierarchical_dict pairs = .error .sparseSequence := by
  constructor
  · rfl
  · intro pairs t hf hg
    rw [get_hierarchical_dict, hf]
    show finalize t = _
    exact finalize_gap t hg

/-- C7 witness: the folded partial tree of the concrete sparse input has
an unfilled slot at index 1, and the claim theorem applies to it. -/
theorem c7_witness :
    foldStage [("a[0]", "x"), ("a[2]", "y")] =
        .ok (.pmap [("a", .pseq [some (.leaf "x"), none, some (.leaf "y")])]) ∧
      get_hierarchical_dict [("a[0]", "x"), ("a[2]", "y")] = .error .sparseSequence :=
  ⟨rfl, c7_sparse_sequence.2 [("a[0]", "x"), ("a[2]", "y")]
    (.pmap [("a", .pseq [some (.leaf "x"), none, some (.leaf "y")])]) rfl rfl⟩

/-! ## Detection scanner correctness -/

/-- The digits-then-close scan succeeds exactly on lists that start with a
digit run followed by the closing delimiter. -/
theorem groupClose_iff (cl : Char) (l : List Char) :
    groupClose cl l = true ↔
      ∃ d b, l = d ++ cl :: b ∧ ∀ ch ∈ d, isDig ch = true := by
  induction l with
  | nil => simp [groupClose]
  | cons x rest ih =>
    rw [groupClose]
    constructor
    · intro h
      by_cases hx : x = cl
      · exact ⟨[], rest, by simp [hx], by simp⟩
      · simp [hx] at h
        by_cases hd : isDig x
        · simp [hd] at h
          obtain ⟨d, b, hl, hdig⟩ := ih.mp h
          refine ⟨x :: d, b, by simp [hl], ?_⟩
          intro ch hch
          rcases List.mem_cons.mp hch with h₁ | h₁
          · exact h₁ ▸ hd
          · exact hdig ch h₁
        · simp [hd] at h
    · rintro ⟨d, b, hl, hdig⟩
      cases d with
      | nil =>
        simp at hl
        simp [hl.1]
      | cons ch d₁ =>
        simp at hl
        by_cases hx : x = cl
        · simp [hx]
        · simp [hx, hl.1 ▸ hdig ch (by simp)]
          exact ih.mpr ⟨d₁, b, hl.2, fun c hc => hdig c (by simp [hc])⟩

/-- The group-body scan succeeds exactly on lists that start with a
nonempty digit run followed by the closing delimiter. -/
theorem groupAfterOpen_iff (cl : Char) (l : List Char) :
    groupAfterOpen cl l = true ↔
      ∃ d b, l = d ++ cl :: b ∧ d ≠ [] ∧ ∀ ch ∈ d, isDig ch = true := by
  cases l with
  | nil => simp [groupAfterOpen]
  | cons x rest =>
    rw [groupAfterOpen]
    constructor
    · intro h
      rw [Bool.and_eq_true] at h
      obtain ⟨d, b, hl, hdig⟩ := (groupClose_iff cl rest).mp h.2
      refine ⟨x :: d, b, by simp [hl], by simp, ?_⟩
      intro ch hch
      rcases List.mem_cons.mp hch with h₁ | h₁
      · exact h₁ ▸ h.1
      · exact hdig ch h₁
    · rintro ⟨d, b, hl, hne, hdig⟩
      cases d with
      | nil => exact absurd rfl hne
      | cons ch d₁ =>
        simp at hl
        rw [Bool.and_eq_true]
        refine ⟨hl.1 ▸ hdig ch (by simp), ?_⟩
        exact (groupClose_iff cl rest).mpr ⟨d₁, b, hl.2, fun c hc => hdig c (by simp [hc])⟩

/-- The whole-key scan finds a delimited index group exactly when the
decomposition property holds. -/
theorem hasIndexGroup_iff (op cl : Char) (l : List Char) :
    hasIndexGroup op cl l = true ↔ HasGroupProp op cl l := by
  induction l with
  | nil => simp [hasIndexGroup, HasGroupProp]
  | cons x rest ih =>
    rw [hasIndexGroup, Bool.or_eq_true]
    constructor
    · intro h
      rcases h with h | h
      · rw [Bool.and_eq_true] at h
        obtain ⟨d, b, hl, hne, hdig⟩ := (groupAfterOpen_iff cl rest).mp h.2
        have hx : x = op := by
          have := h.1
          simp at this
          exact this
        exact ⟨[], d, b, by simp [hx, hl], hne, hdig⟩
      · obtain ⟨a, d, b, hl, hne, hdig⟩ := ih.mp h
        exact ⟨x :: a, d, b, by simp [hl], hne, hdig⟩
    · rintro ⟨a, d, b, hl, hne, hdig⟩
      cases a with
      | nil =>
        simp at hl
        left
        rw [Bool.and_eq_true]
        refine ⟨by simp [hl.1], ?_⟩
        exact (groupAfterOpen_iff cl rest).mpr ⟨d, b, hl.2, hne, hdig⟩
      | cons y a₁ =>
        simp at hl
        right
        exact ih.mpr ⟨a₁, d, b, hl.2, hne, hdig⟩

/-- A bracket-rendered key with an index detects as Bracket. -/
theorem detect_render_bracket (n : String) (rest : List Tok) (i : Nat) (g : Bool)
    (hmem : Tok.idx i g ∈ rest) :
    detect_key_convention ⟨renderKeyD '[' ']' (Tok.field n :: rest)⟩ = .bracket := by
  rw [detect_key_convention,
    if_pos ((hasIndexGroup_iff '[' ']' _).mpr (renderKeyD_idx_group '[' ']' n rest i g hmem))]

/-- A parentheses-rendered key with an index detects as Parentheses. -/
theorem detect_render_paren (n : String) (rest : List Tok) (i : Nat) (g : Bool)
    (hmem : Tok.idx i g ∈ rest)
    (hnames : ∀ m, Tok.field m ∈ (Tok.field n :: rest) → validName m = true) :
    detect_key_convention ⟨renderKeyD '(' ')' (Tok.field n :: rest)⟩ = .parentheses := by
  rw [detect_key_convention]
  rw [hasIndexGroup_of_not_mem '[' ']' _ (renderKeyD_paren_no_bracket _ hnames)]
  rw [if_neg (by simp)]
  rw [if_pos ((hasIndexGroup_iff '(' ')' _).mpr
    (renderKeyD_idx_group '(' ')' n rest i g hmem))]

/-! ## Parsing the rendered pairs back -/

/-- A pointwise-successful effectful map over rendered items succeeds. -/
theorem mapM_map_ok {α γ β ε : Type} :
    ∀ (l : List α) (r : α → γ) (f : γ → Except ε β) (g : α → β),
      (∀ x ∈ l, f (r x) = .ok (g x)) → (l.map r).mapM f = .ok (l.map g) := by
  intro l r f g
  induction l with
  | nil => intro _; rfl
  | cons a l ih =>
    intro h
    rw [List.map_cons, List.mapM_cons, h a (List.mem_cons_self _ _),
      ih (fun x hx => h x (List.mem_cons_of_mem _ hx))]
    rfl

/-- Parsing one rendered pair of a well-formed path under the bracket or
parentheses convention recovers the path, with the underscore-origin flag
set exactly when the path has no index (in which case the rendered key, a
plain dotted name, auto-detects as underscore). -/
theorem parseEntry_render (conv : Convention)
    (hconv : conv = .bracket ∨ conv = .parentheses)
    (n : String) (rest : List Tok)
    (hnames : ∀ m, Tok.field m ∈ (Tok.field n :: rest) → validName m = true)
    (hflags : ∀ i g, Tok.idx i g ∈ rest → g = false) (s : String) :
    parseEntry (renderKey conv (Tok.field n :: rest), s) =
      .ok (!hasIdx (Tok.field n :: rest), Tok.field n :: rest, s) := by
  have hcons : hasIdx (Tok.field n :: rest) = hasIdx rest := by simp [hasIdx]
  cases hidx : hasIdx rest with
  | false =>
    have hnoidx : hasIdx (Tok.field n :: rest) = false := by rw [hcons, hidx]
    rcases hconv with rfl | rfl
    · have hdet := detect_render_noidx '[' ']' _ hnoidx hnames
      have hparse := parseKeyU_render_noidx '[' ']' n rest hnoidx hnames
      simp [parseEntry, renderKey, hdet, hparse, hnoidx]
    · have hdet := detect_render_noidx '(' ')' _ hnoidx hnames
      have hparse := parseKeyU_render_noidx '(' ')' n rest hnoidx hnames
      simp [parseEntry, renderKey, hdet, hparse, hnoidx]
  | true =>
    obtain ⟨i, g, hmem⟩ : ∃ i g, Tok.idx i g ∈ rest := by
      rw [hasIdx, List.any_eq_true] at hidx
      obtain ⟨t, htm, hti⟩ := hidx
      cases t with
      | field m => simp at hti
      | idx i g => exact ⟨i, g, htm⟩
    rcases hconv with rfl | rfl
    · have hdet := detect_render_bracket n rest i g hmem
      have hparse := parseKeyD_renderKeyD '[' ']' (by decide) (by decide) (Or.inl rfl)
        n rest hnames hflags
      simp [parseEntry, renderKey, hdet, hparse, hcons, hidx]
    · have hdet := detect_render_paren n rest i g hmem hnames
      have hparse := parseKeyD_renderKeyD '(' ')' (by decide) (by decide) (Or.inr rfl)
        n rest hnames hflags
      simp [parseEntry, renderKey, hdet, hparse, hcons, hidx]

/-- C8: for every raw key, detection returns Bracket exactly when the key
contains a `[digits]` group, Parentheses exactly when it contains no
`[digits]` group but a `(digits)` group, and Underscore exactly when it
contains neither; in particular `somekey` detects as Underscore. -/
theorem c8_detect_convention (key : String) :
    (detect_key_convention key = .bracket ↔ HasGroupProp '[' ']' key.data) ∧
      (detect_key_convention key = .parentheses ↔
        (¬ HasGroupProp '[' ']' key.data ∧ HasGroupProp '(' ')' key.data)) ∧
      (detect_key_convention key = .underscore ↔
        (¬ HasGroupProp '[' ']' key.data ∧ ¬ HasGroupProp '(' ')' key.data)) ∧
      detect_key_convention "somekey" = .underscore := by
  refine ⟨?_, ?_, ?_, by decide⟩ <;>
    simp only [detect_key_convention, ← hasIndexGroup_iff] <;>
    rcases hb : hasIndexGroup '[' ']' key.data <;>
    rcases hp : hasIndexGroup '(' ')' key.data <;>
    simp [hb, hp]

/-! ## Underscore generation asymmetry -/

/-- Appending a field and a final separated index to an underscore key
continuation glues the index straight onto the field name. -/
theorem renderRestU_append_final (A : List Tok) (n : String) (i : Nat) :
    renderRestU (A ++ [Tok.field n, Tok.idx i false]) =
      renderRestU (A ++ [Tok.field n]) ++ natDigits i := by
  induction A with
  | nil => simp [renderRestU]
  | cons t A ih =>
    cases t with
    | field m =>
      simp only [List.cons_append, renderRestU]
      simp [ih]
    | idx j g =>
      cases A with
      | nil => simp [renderRestU]
      | cons t₁ A₁ =>
        simp only [List.cons_append, renderRestU, List.append_eq, List.append_assoc]
        exact congrArg (fun l => '_' :: (natDigits j ++ l)) ih

/-- Appending a field and a final separated index to a whole underscore
key glues the index straight onto the field name. -/
theorem renderKeyU_append_final (A : List Tok) (n : String) (i : Nat) :
    renderKeyU (A ++ [Tok.field n, Tok.idx i false]) =
      renderKeyU (A ++ [Tok.field n]) ++ natDigits i := by
  cases A with
  | nil => simp [renderKeyU, renderRestU]
  | cons t A =>
    cases t with
    | field m => simp [renderKeyU, renderRestU_append_final]
    | idx j g =>
      show renderRestU ((Tok.idx j g :: A) ++ [Tok.field n, Tok.idx i false]) =
        renderRestU ((Tok.idx j g :: A) ++ [Tok.field n]) ++ natDigits i
      exact renderRestU_append_final (Tok.idx j g :: A) n i

/-- An underscore key continuation that starts with a field is the `_`
separator followed by the whole-key rendering. -/
theorem renderRestU_field_head (n : String) (T : List Tok) :
    renderRestU (Tok.field n :: T) = '_' :: renderKeyU (Tok.field n :: T) := by
  simp [renderRestU, renderKeyU]

/-- C4 counterexample: the spec renders name `a` with final index 0 as
`A0` (upper-cased), but key generation preserves the caller's case, as
pinned by the lowercase underscore keys expected in
`test_dumps_list_impostors`. -/
theorem c4_counterexample :
    generate_key [⟨"a", [0]⟩] .underscore = "a0" ∧ ("a0" : String) ≠ "A0" :=
  ⟨rfl, by decide⟩

/-- C4 amended: under the Underscore convention, an index on the final
path segment is glued directly onto the name as written (no separator, no
case transformation); an index on a non-final segment is followed by `_`
before the next segment; and the example path L, FOO idx 0, BAR idx 1,
ZAR idx 1337 renders as `L_FOO_0_BAR_1_ZAR1337`. -/
theorem c4_underscore_asymmetry :
    (∀ (segs : List Seg) (n : String) (i : Nat),
      generate_key (segs ++ [⟨n, [i]⟩]) .underscore =
        generate_key (segs ++ [⟨n, []⟩]) .underscore ++ natStr i) ∧
      (∀ (m : String) (j : Nat) (segs₂ : List Seg), segs₂ ≠ [] →
        generate_key (⟨m, [j]⟩ :: segs₂) .underscore =
          m ++ "_" ++ natStr j ++ "_" ++ generate_key segs₂ .underscore) ∧
      generate_key [⟨"L", []⟩, ⟨"FOO", [0]⟩, ⟨"BAR", [1]⟩, ⟨"ZAR", [1337]⟩]
        .underscore = "L_FOO_0_BAR_1_ZAR1337" := by
  refine ⟨?_, ?_, rfl⟩
  · intro segs n i
    have hseg : segsToToks (segs ++ [⟨n, [i]⟩]) =
        segsToToks segs ++ [Tok.field n, Tok.idx i false] := by
      simp [segsToToks]
    have hseg₂ : segsToToks (segs ++ [⟨n, []⟩]) = segsToToks segs ++ [Tok.field n] := by
      simp [segsToToks]
    show renderKey .underscore _ = renderKey .underscore _ ++ natStr i
    rw [renderKey, renderKey, hseg, hseg₂, renderKeyU_append_final]
    rfl
  · intro m j segs₂ hne
    obtain ⟨sg, rest, hsg⟩ : ∃ sg rest, segs₂ = sg :: rest := by
      cases segs₂ with
      | nil => exact absurd rfl hne
      | cons sg rest => exact ⟨sg, rest, rfl⟩
    subst hsg
    show renderKey .underscore _ = _
    have hseg : segsToToks (⟨m, [j]⟩ :: sg :: rest) =
        Tok.field m :: Tok.idx j false :: Tok.field sg.name ::
          (sg.idxs.map (fun i => Tok.idx i false) ++ segsToToks rest) := by
      simp [segsToToks]
    rw [renderKey, hseg, renderKeyU]
    rw [show renderRestU (Tok.idx j false :: Tok.field sg.name ::
        (sg.idxs.map (fun i => Tok.idx i false) ++ segsToToks rest)) =
      '_' :: (natDigits j ++ renderRestU (Tok.field sg.name ::
        (sg.idxs.map (fun i => Tok.idx i false) ++ segsToToks rest))) from rfl]
    rw [renderRestU_field_head]
    show (⟨m.data ++ '_' :: (natDigits j ++ '_' ::
      renderKeyU (Tok.field sg.name :: (sg.idxs.map (fun i => Tok.idx i false) ++
        segsToToks rest)))⟩ : String) = _
    have : renderKey .underscore (segsToToks (sg :: rest)) =
        ⟨renderKeyU (Tok.field sg.name ::
          (sg.idxs.map (fun i => Tok.idx i false) ++ segsToToks rest))⟩ := by
      simp [renderKey, segsToToks]
    rw [generate_key, this]
    show String.mk _ = String.mk _
    simp [natStr]

/-- C4 witness: the amended non-final equation at the concrete path A idx
0 followed by B. -/
theorem c4_witness :
    ([⟨"B", []⟩] : List Seg) ≠ [] ∧
      generate_key [⟨"A", [0]⟩, ⟨"B", []⟩] .underscore =
        "A" ++ "_" ++ natStr 0 ++ "_" ++ generate_key [⟨"B", []⟩] .underscore :=
  ⟨by simp, c4_underscore_asymmetry.2.1 "A" 0 [⟨"B", []⟩] (by simp)⟩

/-- C10: for every well-formed Underscore-convention key, conversion
yields a Bracket-convention key denoting the same Key Path: intermediate
lone-digit components become `[i]` groups attached to the preceding name,
a trailing digit run on the final component becomes a final `[i]` group,
and remaining components join with `.`; in particular `L_FOO_0_BAR1` maps
to `L.FOO[0].BAR[1]` and `FOO_0_0_0_BAR` to `FOO[0][0][0].BAR`. -/
theorem c10_convert_same_path :
    (∀ (k : String) (toks : List Tok), parseKeyU k = some toks → wfUKey k = true →
      parseKeyD '[' ']' (convert_underscore_into_bracket_key k) =
        some (stripGlue toks)) ∧
      convert_underscore_into_bracket_key "L_FOO_0_BAR1" = "L.FOO[0].BAR[1]" ∧
      convert_underscore_into_bracket_key "FOO_0_0_0_BAR" = "FOO[0][0][0].BAR" := by
  refine ⟨?_, rfl, rfl⟩
  intro k toks hparse hwf
  rw [parseKeyU] at hparse
  rw [wfUKey, Bool.and_eq_true] at hwf
  obtain ⟨hchars, hhead⟩ := hwf
  have hcharsall : ∀ ch ∈ k.data, ch ≠ '[' ∧ ch ≠ ']' := by
    intro ch hch
    have := List.all_eq_true.mp hchars ch hch
    rw [Bool.and_eq_true] at this
    exact ⟨by simpa using this.1, by simpa using this.2⟩
  have hcomps : ∀ g ∈ splitOnChar '_' k.data, ∀ ch ∈ g, ch ≠ '[' ∧ ch ≠ ']' := by
    intro g hg ch hch
    exact hcharsall ch (splitOnChar_mem_subset '_' k.data g hg ch hch)
  have hheadcond : ∀ c₀ cr, splitOnChar '_' k.data = c₀ :: cr → c₀.all isDig = false := by
    intro c₀ cr hc₀
    rw [hc₀] at hhead
    simpa using hhead
  obtain ⟨spec, hwfspec, hspecne, hrender, htoks⟩ :=
    convComps_renders (splitOnChar '_' k.data).length (splitOnChar '_' k.data)
      ((splitOnChar '_' k.data).length + 1) toks (le_refl _)
      (splitOnChar_ne_nil '_' k.data) (by omega) hparse hcomps hheadcond
  obtain ⟨c, spec₁, rfl⟩ : ∃ c s, spec = c :: s := by
    cases spec with
    | nil => exact absurd rfl hspecne
    | cons c s => exact ⟨c, s, rfl⟩
  rw [show convert_underscore_into_bracket_key k =
    ⟨joinSepChar '.' (convCompsGo ((splitOnChar '_' k.data).length + 1)
      (splitOnChar '_' k.data))⟩ from rfl]
  rw [hrender, htoks]
  exact parseKeyD_renderDComps '[' ']' (by decide) (by decide) c spec₁
    (hwfspec c (List.mem_cons_self c spec₁))
    (fun x hx => hwfspec x (List.mem_cons_of_mem c hx))

/-- C10 witness: the conversion equivalence at the concrete key
`L_FOO_0_BAR1`, whose glued final index parses as index 1 of `BAR`. -/
theorem c10_witness :
    parseKeyU "L_FOO_0_BAR1" = some [Tok.field "L", Tok.field "FOO", Tok.idx 0 false,
        Tok.field "BAR", Tok.idx 1 true] ∧
      wfUKey "L_FOO_0_BAR1" = true ∧
      parseKeyD '[' ']' (convert_underscore_into_bracket_key "L_FOO_0_BAR1") =
        some (stripGlue [Tok.field "L", Tok.field "FOO", Tok.idx 0 false,
          Tok.field "BAR", Tok.idx 1 true]) :=
  ⟨rfl, rfl, c10_convert_same_path.1 "L_FOO_0_BAR1" _ rfl rfl⟩

/-- C9: the `strict_parsing` parameter of `loads` is accepted but never
forwarded to the query-string parser, so it has no effect on the result
for any input and any setting of the other parameters. -/
theorem c9_strict_parsing_no_effect (input : PyIn) (kb gh : Bool)
    (kf vf : Option (String → String)) :
    loads input kb true gh kf vf = loads input kb false gh kf vf := rfl

/-! ## The round trip of a valid document -/

/-- Reconciliation is the identity on an entry whose underscore-origin
flag is set exactly when its path has no index. -/
theorem resolveEntry_flagged (E : List Entry) (ps : List Tok × String) :
    resolveEntry E (!hasIdx ps.1, ps.1, ps.2) = ps := by
  rw [show resolveEntry E (!hasIdx ps.1, ps.1, ps.2) =
    (resolveGo E (!hasIdx ps.1) [] [] ps.1, ps.2) from rfl]
  cases hidx : hasIdx ps.1 with
  | true =>
    rw [Bool.not_true, resolveGo_not_u E ps.1 [] [], List.nil_append]
  | false =>
    rw [Bool.not_false, resolveGo_noidx E true ps.1 hidx [] [], List.nil_append]

/-- Reconciliation is the identity on a whole batch of entries so
flagged. -/
theorem resolve_entries_flagged (E : List Entry) :
    ∀ L : List (List Tok × String),
      ((L.map (fun ps => ((!hasIdx ps.1, ps.1, ps.2) : Entry))).map (resolveEntry E)) =
        L := by
  intro L
  induction L with
  | nil => rfl
  | cons p L ih => rw [List.map_cons, List.map_cons, resolveEntry_flagged E p, ih]

/-- Flattening a valid document under the bracket or parentheses
convention and rebuilding restores the document exactly. -/
theorem roundTrip_valid (conv : Convention)
    (hconv : conv = .bracket ∨ conv = .parentheses)
    (v : Value) (h : validDoc v = true) : roundTrip v conv = .ok (.ok v) := by
  cases v with
  | scalar s => simp [validDoc] at h
  | seq xs => simp [validDoc] at h
  | map fs =>
    rw [show validDoc (.map fs) = validM fs from rfl] at h
    have hpairs : get_hierarchical_pairs (.map fs) conv =
        .ok ((flattenMap fs).map (fun ps => (renderKey conv ps.1, ps.2))) := rfl
    have hA : ((flattenMap fs).map (fun ps => (renderKey conv ps.1, ps.2))).mapM
          parseEntry =
        .ok ((flattenMap fs).map (fun ps => ((!hasIdx ps.1, ps.1, ps.2) : Entry))) := by
      refine mapM_map_ok (flattenMap fs) _ parseEntry _ ?_
      intro ps hps
      obtain ⟨k, rest, hshape⟩ := flattenMap_head fs ps hps
      have hv : validV (.map fs) = true := by
        cases fs with
        | nil => rw [flattenMap] at hps; cases hps
        | cons f fs₁ =>
          rw [validV, Bool.and_eq_true]
          exact ⟨by simp, h⟩
      have hw := flattenPaths_wf (.map fs) hv ps hps
      rw [hshape] at hw ⊢
      exact parseEntry_render conv hconv k rest hw.1
        (fun i g hm => hw.2 i g (List.mem_cons_of_mem _ hm)) ps.2
    have hres := resolve_entries_flagged
      ((flattenMap fs).map (fun ps => ((!hasIdx ps.1, ps.1, ps.2) : Entry)))
      (flattenMap fs)
    have hB : foldStage ((flattenMap fs).map (fun ps => (renderKey conv ps.1, ps.2))) =
        .ok (.pmap (toPM fs)) := by
      rw [foldStage, hA]
      simp only [Bind.bind, Except.bind]
      rw [hres]
      exact foldIns_map fs h [] (fun k _ hmem => absurd hmem (List.not_mem_nil _))
    have hC : get_hierarchical_dict
          ((flattenMap fs).map (fun ps => (renderKey conv ps.1, ps.2))) =
        .ok (.map fs) := by
      rw [get_hierarchical_dict, hB]
      simp only [Bind.bind, Except.bind]
      exact finalize_toP (.map fs)
    rw [roundTrip, hpairs]
    rw [show (Except.ok ((flattenMap fs).map (fun ps => (renderKey conv ps.1, ps.2))) :
        Except EncErr (List (String × String))).map get_hierarchical_dict =
      Except.ok (get_hierarchical_dict
        ((flattenMap fs).map (fun ps => (renderKey conv ps.1, ps.2)))) from rfl]
    rw [hC]

/-- C1 counterexample: the round trip is not the identity on every Mapping
built from Scalars, Sequences and Mappings. The document `{a: []}`
contains an empty Sequence (vacuously non-sparse); it flattens to no pairs
at all, so rebuilding yields the empty Mapping instead of the original. -/
theorem c1_counterexample :
    roundTrip (Value.map [("a", Value.seq [])]) .bracket =
        .ok (.ok (Value.map [])) ∧
      roundTrip (Value.map [("a", Value.seq [])]) .bracket ≠
        .ok (.ok (Value.map [("a", Value.seq [])])) := by
  constructor
  · rfl
  · intro hcontra
    rw [show roundTrip (Value.map [("a", Value.seq [])]) .bracket =
      .ok (.ok (Value.map [])) from rfl] at hcontra
    injection hcontra with h₁
    injection h₁ with h₂
    injection h₂ with h₃
    cases h₃

/-- C1 (amended): for every valid document — a Mapping root whose field
names are nonempty, avoid the characters `. [ ] ( ) _`, do not end in a
decimal digit, and are pairwise distinct at each level, and whose nested
Sequences and Mappings are nonempty — decoding the encoding restores the
document exactly, under both the Bracket and the Parentheses
conventions. -/
theorem c1_round_trip (v : Value) (h : validDoc v = true) :
    roundTrip v .bracket = .ok (.ok v) ∧ roundTrip v .parentheses = .ok (.ok v) :=
  ⟨roundTrip_valid .bracket (Or.inl rfl) v h,
    roundTrip_valid .parentheses (Or.inr rfl) v h⟩

/-- C1 witness: the round trip at a concrete valid document with a nested
sequence and mapping. -/
theorem c1_witness :
    validDoc (Value.map [("a", Value.scalar "x"),
        ("b", Value.seq [Value.scalar "y", Value.map [("c", Value.scalar "z")]])]) =
      true ∧
    (roundTrip (Value.map [("a", Value.scalar "x"),
        ("b", Value.seq [Value.scalar "y", Value.map [("c", Value.scalar "z")]])])
        .bracket =
      .ok (.ok (Value.map [("a", Value.scalar "x"),
        ("b", Value.seq [Value.scalar "y", Value.map [("c", Value.scalar "z")]])])) ∧
    roundTrip (Value.map [("a", Value.scalar "x"),
        ("b", Value.seq [Value.scalar "y", Value.map [("c", Value.scalar "z")]])])
        .parentheses =
      .ok (.ok (Value.map [("a", Value.scalar "x"),
        ("b", Value.seq [Value.scalar "y", Value.map [("c", Value.scalar "z")]])]))) :=
  ⟨by decide, c1_round_trip (Value.map [("a", Value.scalar "x"),
    ("b", Value.seq [Value.scalar "y", Value.map [("c", Value.scalar "z")]])])
    (by decide)⟩

end NVP
